import Mathlib

/-!
# Verification of the display-calibration and color-generator application

Shallow embedding of `src/CalibratorApp.py`.  Python floats are modelled as
exact rationals (`ℚ`); Python strings as Lean `String` (a wrapper around
`List Char`); Python dictionaries as association lists whose insertion
operation overwrites an existing key in place, exactly like `dict.__setitem__`.
File contents are modelled as the string that is read from or written to the
file.  Tkinter widgets are modelled by explicit state records, each GUI
callback by a state-transition function.
-/

namespace Calibrator

/-! ## Python string primitives -/

/-- Whitespace characters recognised by Python's `str.strip` and `float`. -/
def isWsChar (c : Char) : Bool :=
  c = ' ' || c = '\t' || c = '\n' || c = '\r' || c = '\x0b' || c = '\x0c'

/-- ASCII decimal digit test, as used when scanning numeric literals. -/
def isDigitChar (c : Char) : Bool :=
  48 ≤ c.toNat && c.toNat ≤ 57

/-- Python `str.strip` on the underlying character list. -/
def stripList (l : List Char) : List Char :=
  ((l.dropWhile isWsChar).reverse.dropWhile isWsChar).reverse

/-- Python `str.strip`. -/
def pyStrip (s : String) : String :=
  ⟨stripList s.data⟩

/-- Python `str.split(c)` for a one-character separator: splits on every
occurrence of `c` and keeps empty pieces, like Python. -/
def splitCh (c : Char) : List Char → List (List Char)
  | [] => [[]]
  | x :: xs =>
    match splitCh c xs with
    | [] => [[]]
    | h :: t => if x = c then [] :: h :: t else (x :: h) :: t

/-- Python's file line iteration (`f.readlines()` / `for line in f`):
each line keeps its trailing newline; a final fragment without a newline is
returned as-is; an empty file yields no lines. -/
def readLinesList : List Char → List (List Char)
  | [] => []
  | c :: r =>
    if c = '\n' then ['\n'] :: readLinesList r
    else
      match readLinesList r with
      | [] => [[c]]
      | h :: t => (c :: h) :: t

/-- Lines of a file's contents, as Python strings. -/
def pyLines (s : String) : List String :=
  (readLinesList s.data).map fun l => ⟨l⟩

/-! ## Decimal digits: reading and printing -/

/-- Value of a run of ASCII digit characters read left to right, exactly the
accumulator a positional parse performs. -/
def digitsVal (l : List Char) : ℕ :=
  l.foldl (fun a c => 10 * a + (c.toNat - 48)) 0

/-- The ASCII character of one decimal digit. -/
def digitChar (d : ℕ) : Char :=
  [ '0', '1', '2', '3', '4', '5', '6', '7', '8', '9'].getD d '0'

/-- Fuel-driven most-significant-first decimal digits of a natural number. -/
def natCharsAux : ℕ → ℕ → List Char
  | 0, _ => []
  | fuel + 1, n =>
    if n = 0 then [] else natCharsAux fuel (n / 10) ++ [digitChar (n % 10)]

/-- Decimal digit characters of a natural number (`"0"` for zero). -/
def natChars (n : ℕ) : List Char :=
  if n = 0 then ['0'] else natCharsAux n n

/-- Left-pad a digit run with zeros up to width `k`. -/
def padZeros (k : ℕ) (l : List Char) : List Char :=
  List.replicate (k - l.length) '0' ++ l

/-! ## A model of Python `float(str)` on exact decimals

`float()` strips whitespace, then accepts an optional sign, a decimal
mantissa (digits, optionally with one point, at least one digit overall) and
an optional exponent part.  Values are exact rationals; strings denoting
non-finite values (`inf`, `nan`) are outside the model and rejected. -/

/-- Parse an optional exponent suffix and apply it to mantissa `m`. -/
def pyExpPart (m : ℚ) : List Char → Option ℚ
  | [] => some m
  | c :: r =>
    if c = 'e' || c = 'E' then
      let (neg, r2) :=
        match r with
        | '+' :: t => (false, t)
        | '-' :: t => (true, t)
        | t => (false, t)
      let ds := r2.takeWhile isDigitChar
      let r3 := r2.dropWhile isDigitChar
      if ds = [] ∨ r3 ≠ [] then none
      else some (if neg then m / 10 ^ digitsVal ds else m * 10 ^ digitsVal ds)
    else none

/-- Parse an unsigned decimal mantissa with optional exponent. -/
def pyFloatUnsigned (l : List Char) : Option ℚ :=
  let ip := l.takeWhile isDigitChar
  let rest := l.dropWhile isDigitChar
  match rest with
  | [] => if ip = [] then none else some (digitsVal ip)
  | '.' :: rest2 =>
    let fp := rest2.takeWhile isDigitChar
    let rest3 := rest2.dropWhile isDigitChar
    if ip = [] ∧ fp = [] then none
    else pyExpPart ((digitsVal (ip ++ fp) : ℚ) / 10 ^ fp.length) rest3
  | _ => if ip = [] then none else pyExpPart (digitsVal ip) rest

/-- Sign handling of `float(str)` (input already stripped). -/
def pyFloatCore (l : List Char) : Option ℚ :=
  match l with
  | [] => none
  | c :: r =>
    if c = '+' then pyFloatUnsigned r
    else if c = '-' then (pyFloatUnsigned r).map Neg.neg
    else pyFloatUnsigned (c :: r)

/-- Python `float(str)` on finite decimal notation, as an exact rational;
`none` models the `ValueError` raised on unparseable input. -/
def pyFloat? (s : String) : Option ℚ :=
  pyFloatCore (stripList s.data)

/-! ## Printing floats

Python prints a float in f-strings through `repr`, which emits a decimal
string denoting the value exactly as far as round-tripping is concerned.
Modelling floats as rationals, we print the exact decimal expansion of a
rational whose denominator divides a power of ten. -/

/-- A rational exactly representable in decimal notation (every finite
binary float is, since 2 divides 10). -/
def DecimalRat (q : ℚ) : Prop :=
  ∃ j : ℕ, (q.den : ℕ) ∣ 10 ^ j

/-- Least exponent `k ≤ d` with `d ∣ 10 ^ k`, when one exists. -/
def minPow10 (d : ℕ) : ℕ :=
  ((List.range (d + 1)).find? fun k => decide (d ∣ 10 ^ k)).getD d

/-- Decimal rendering of a rational, modelling Python's float formatting:
sign, integer part, point, fractional digits.  Exact on `DecimalRat`
values; always shows at least one fractional digit, as `repr` does. -/
def ratRepr (q : ℚ) : String :=
  let d := q.den
  let k := max 1 (minPow10 d)
  let n := q.num.natAbs * 10 ^ k / d
  ⟨(if q < 0 then ['-'] else []) ++
    natChars (n / 10 ^ k) ++ '.' :: padZeros k (natChars (n % 10 ^ k))⟩

/-- Floor of a rational (numerator over positive denominator under
Euclidean division is the floor). -/
def ratFloor (q : ℚ) : ℤ := q.num / q.den

/-- Python `round` on a float: round half to even, returning an integer. -/
def pyRound (q : ℚ) : ℤ :=
  if q - ratFloor q < 1 / 2 then ratFloor q
  else if 1 / 2 < q - ratFloor q then ratFloor q + 1
  else if ratFloor q % 2 = 0 then ratFloor q else ratFloor q + 1

/-- The value stored by formatting with `f"{x:.1f}"`: `x` rounded (half to
even on the exact value) to one decimal place. -/
def dec1 (q : ℚ) : ℚ :=
  (if q < 0 then -1 else 1) * ((pyRound (|q| * 10)).toNat : ℚ) / 10

/-- Python `f"{x:.1f}"`: fixed-point formatting with one fractional digit. -/
def fmt1 (q : ℚ) : String :=
  let m := (pyRound (|q| * 10)).toNat
  ⟨(if q < 0 then ['-'] else []) ++ natChars (m / 10) ++ ['.', digitChar (m % 10)]⟩

/-! ## Python dictionaries -/

/-- Python `dict.__setitem__`: overwrite an existing key in place (Python
dicts keep the original insertion position), else append at the end. -/
def dictInsert {β : Type} (k : String) (v : β) : List (String × β) → List (String × β)
  | [] => [(k, v)]
  | (k', v') :: rest =>
    if k' = k then (k, v) :: rest else (k', v') :: dictInsert k v rest

/-! ## The color arithmetic (`clamp`, `compute_color`) -/

/-- `clamp(value, min_val=0, max_val=255)`: clamp the value within the
specified range and return an integer (`int(round(value))` first). -/
def clamp (value : ℚ) (min_val : ℤ := 0) (max_val : ℤ := 255) : ℤ :=
  max min_val (min (pyRound value) max_val)

/-- The three channel values of `compute_color`: white balance raises red
and lowers blue, tint moves green. -/
def computeColorRGB (base wb tint : ℚ) : ℤ × ℤ × ℤ :=
  (clamp (base + wb), clamp (base + tint), clamp (base - wb))

/-- One byte as two lowercase hex digits (`f"{r:02x}"` for `0 ≤ r ≤ 255`). -/
def hex2 (n : ℕ) : List Char :=
  [ "0123456789abcdef".data.getD (n / 16 % 16) '0',
    "0123456789abcdef".data.getD (n % 16) '0']

/-- `compute_color(base, wb, tint)`: the final `#rrggbb` color string. -/
def compute_color (base wb tint : ℚ) : String :=
  let c := computeColorRGB base wb tint
  ⟨'#' :: hex2 c.1.toNat ++ hex2 c.2.1.toNat ++ hex2 c.2.2.toNat⟩

/-! ## Fixed tables -/

/-- `brightness_levels`: the five luminance tiers of the calibration wizard. -/
def brightness_levels : List (String × ℚ) :=
  [("black", 0), ("dark gray", 64), ("gray", 128), ("light gray", 192), ("white", 255)]

/-- `test_color_values`: display name of a test color to its base value. -/
def test_color_values : List (String × ℚ) :=
  [("Black", 0), ("Dark Gray", 64), ("Gray", 128), ("Light Gray", 192), ("White", 255)]

/-! ## Monitor calibration persistence -/

/-- One parsed line of the calibration file: `level:wb,tint` with both
numbers parsed by `float`; `none` when the line raises (and is skipped). -/
def parseCalibLine (l : List Char) : Option (String × ℚ × ℚ) :=
  match splitCh ':' l with
  | [level, params] =>
    match splitCh ',' params with
    | [wbs, tints] =>
      match pyFloatCore (stripList wbs), pyFloatCore (stripList tints) with
      | some w, some t => some (⟨(stripList level).map Char.toLower⟩, w, t)
      | _, _ => none
    | _ => none
  | _ => none

/-- One iteration of the `load_calibration_data` loop. -/
def calibStep (m : List (String × ℚ × ℚ)) (line : List Char) :
    List (String × ℚ × ℚ) :=
  let l := stripList line
  if l = [] then m
  else
    match parseCalibLine l with
    | some (k, w, t) => dictInsert k (w, t) m
    | none => m

/-- `load_calibration_data()`: fold over the file's lines, skipping blank
lines and lines whose parse raises, keying records by the lowercased,
stripped level name. -/
def load_calibration_data (content : String) : List (String × ℚ × ℚ) :=
  (readLinesList content.data).foldl calibStep []

/-- `save_calibration_data(calibration_values)`: one `level:wb,tint` line
per record, floats rendered by Python string formatting. -/
def save_calibration_data (m : List (String × ℚ × ℚ)) : String :=
  ⟨(m.map fun e =>
      e.1.data ++ ':' :: (ratRepr e.2.1).data ++ ',' :: (ratRepr e.2.2).data ++ ['\n']).flatten⟩

/-! ## Phone profiles -/

/-- One phone-profile record: temperature label kept verbatim as a string,
corrections as numbers. -/
structure PhoneProfile where
  temperature : String
  wb_correction : ℚ
  tint_correction : ℚ
deriving DecidableEq, Repr

/-- `float(field) if field not in ["", "NA"] else 0.0`; `none` models the
uncaught `ValueError` that `float` raises on other non-numeric input. -/
def parseCorr (s : String) : Option ℚ :=
  if s = "" || s = "NA" then some 0 else pyFloat? s

/-- `[part.strip() for part in l.split("|")]`: the pipe-separated, stripped
fields of a (stripped) profile line. -/
def pyPipeParts (l : List Char) : List String :=
  (splitCh '|' l).map fun p => (⟨stripList p⟩ : String)

/-- The line loop of `load_phone_profiles`: skip blank lines and lines with
fewer than four pipe-separated fields; the first four fields of the others
give a record; a correction field rejected by `float` aborts the whole call
(there is no `try` around this loop in the source). -/
def loadProfileLines : List (List Char) → List (String × PhoneProfile) →
    Except Unit (List (String × PhoneProfile))
  | [], acc => .ok acc
  | line :: rest, acc =>
    let l := stripList line
    if l = [] then loadProfileLines rest acc
    else
      match pyPipeParts l with
      | name :: temp :: wbs :: tints :: _ =>
        match parseCorr wbs, parseCorr tints with
        | some w, some t => loadProfileLines rest (dictInsert name ⟨temp, w, t⟩ acc)
        | _, _ => .error ()
      | _ => loadProfileLines rest acc

/-- A profile line on which the loader loop cannot raise: blank lines and
lines with fewer than four fields are skipped, and otherwise both
correction fields must be accepted (`""`/`"NA"` or numeric). -/
def profLineSafe (line : List Char) : Bool :=
  match pyPipeParts (stripList line) with
  | _ :: _ :: wbs :: tints :: _ => (parseCorr wbs).isSome && (parseCorr tints).isSome
  | _ => true

/-- `StageTwoUI.load_phone_profiles`, as a function of the selected file's
contents; `Except.error` models an uncaught exception. -/
def load_phone_profiles (content : String) :
    Except Unit (List (String × PhoneProfile)) :=
  loadProfileLines (readLinesList content.data) []

/-! ## Stage-two UI state -/

/-- The mutable state of `StageTwoUI` that the claims touch: the loaded
monitor calibration, the widget variables, and the loaded profiles. -/
structure StageTwoState where
  calibration_data : List (String × ℚ × ℚ)
  test_color : String
  phone_file : String
  phone_profile : String
  phone_temp : String
  user_wb : ℚ
  user_tint : ℚ
  phone_profiles : List (String × PhoneProfile)
deriving DecidableEq

/-- Python `str.lower` (ASCII suffices for this program's names). -/
def pyLower (s : String) : String := ⟨s.data.map Char.toLower⟩

/-- Python `str.upper`. -/
def pyUpper (s : String) : String := ⟨s.data.map Char.toUpper⟩

/-- `test_color_values.get(name, 128)`. -/
def baseOf (s : StageTwoState) : ℚ :=
  (test_color_values.lookup s.test_color).getD 128

/-- `self.calibration_data.get(name.lower(), {'white_balance':0,'tint':0})`. -/
def monitorCalibOf (s : StageTwoState) : ℚ × ℚ :=
  (s.calibration_data.lookup (pyLower s.test_color)).getD (0, 0)

/-- The temperature correction of `update_background`: zero unless the
stripped entry is neither `"NA"` (any case) nor empty and parses as a
number, in which case `(temp - 6500) / 100`. -/
def phoneTempCorr (tempField : String) : ℚ :=
  let t := pyStrip tempField
  if pyUpper t = "NA" ∨ t = "" then 0
  else
    match pyFloat? t with
    | some v => (v - 6500) / 100
    | none => 0

/-- `StageTwoUI.update_background`: the color the main window is set to. -/
def update_background (s : StageTwoState) : String :=
  let base := baseOf s
  let calib := monitorCalibOf s
  let final_wb := calib.1 + phoneTempCorr s.phone_temp + s.user_wb
  let final_tint := calib.2 + s.user_tint
  compute_color base final_wb final_tint

/-- `StageTwoUI.on_phone_profile_change`: when the name is a key of the
loaded profiles, copy its stored corrections into the sliders and its
stored temperature string into the entry; then the background is
recomputed from the new state by `update_background`. -/
def on_phone_profile_change (s : StageTwoState) (value : String) : StageTwoState :=
  match s.phone_profiles.lookup value with
  | some p =>
    { s with
      user_wb := p.wb_correction
      user_tint := p.tint_correction
      phone_temp := p.temperature }
  | none => s

/-! ## Saving profile changes -/

/-- The line written for the selected profile:
`f"{profile_name} | {temperature} | {new_wb} | {new_tint}\n"`. -/
def profileLine (name temp wb tint : List Char) : List Char :=
  name ++ ' ' :: '|' :: ' ' :: temp ++ ' ' :: '|' :: ' ' :: wb ++
    ' ' :: '|' :: ' ' :: tint ++ ['\n']

/-- The per-line body of `on_save_changes`: blank lines are dropped
(`continue` without appending), lines with fewer than four fields and
lines of other profiles are kept verbatim, and each line whose first field
equals the selected profile is replaced by the freshly formatted line. -/
def saveTransform (selected : String) (temp wb tint : List Char)
    (line : List Char) : Option (List Char) :=
  let ls := stripList line
  if ls = [] then none
  else
    match pyPipeParts ls with
    | name :: _ :: _ :: _ :: _ =>
      if name = selected then some (profileLine name.data temp wb tint)
      else some line
    | _ => some line

/-- Whether a line of the profile file is the selected profile's line: it
has at least four fields and its first field equals the selected name. -/
def lineMatches (selected : String) (line : List Char) : Bool :=
  match pyPipeParts (stripList line) with
  | name :: _ :: _ :: _ :: _ => name = selected
  | _ => false

/-- `StageTwoUI.on_save_changes` as a file transformation: returns the new
contents of the selected profile file (unchanged when no file is
selected, mirroring the early `return`). -/
def on_save_changes (s : StageTwoState) (content : String) : String :=
  if s.phone_file = "" ∨ s.phone_file = "No files found" then content
  else
    ⟨((readLinesList content.data).foldl
        (fun acc line =>
          acc ++ (saveTransform s.phone_profile (stripList s.phone_temp.data)
            (fmt1 s.user_wb).data (fmt1 s.user_tint).data line).toList)
        []).flatten⟩

/-! ## The calibration wizard -/

/-- Events of the calibration stage: slider movements and the Next button. -/
inductive CalEvent where
  | wb (v : ℚ)
  | tint (v : ℚ)
  | next

/-- The wizard's mutable state. -/
structure CalState where
  calibration_values : List (String × ℚ × ℚ)
  current_index : ℕ
  current_wb : ℚ
  current_tint : ℚ
deriving DecidableEq

/-- `CalibrationApp.__init__`: no records yet, at the first tier, both
corrections zero. -/
def initCalState : CalState := ⟨[], 0, 0, 0⟩

/-- Name of the `i`-th brightness level. -/
def levelName (i : ℕ) : String := (brightness_levels.getD i ("", 0)).1

/-- One wizard event: `on_wb_change` / `on_tint_change` set the current
correction; `on_next` records the pair under the current tier, advances,
and either resets the sliders or (after the last tier) saves the file —
the second component is the data written, `none` when nothing is saved. -/
def calStep (s : CalState) :
    CalEvent → CalState × Option (List (String × ℚ × ℚ))
  | .wb v => ({ s with current_wb := v }, none)
  | .tint v => ({ s with current_tint := v }, none)
  | .next =>
    let values :=
      dictInsert (levelName s.current_index) (s.current_wb, s.current_tint)
        s.calibration_values
    let idx := s.current_index + 1
    if idx < brightness_levels.length then
      (⟨values, idx, 0, 0⟩, none)
    else
      (⟨values, idx, s.current_wb, s.current_tint⟩, some values)

/-- Run wizard events from a given state, accumulating the file writes. -/
def calRunFrom (p : CalState × List (List (String × ℚ × ℚ)))
    (es : List CalEvent) : CalState × List (List (String × ℚ × ℚ)) :=
  es.foldl (fun p e => ((calStep p.1 e).1, p.2 ++ (calStep p.1 e).2.toList)) p

/-- Run a list of wizard events from the initial state, collecting every
file write performed along the way. -/
def calRun (es : List CalEvent) : CalState × List (List (String × ℚ × ℚ)) :=
  calRunFrom (initCalState, []) es

/-- Number of Next-button presses in a list of wizard events. -/
def countNext (es : List CalEvent) : ℕ :=
  es.countP fun e =>
    match e with
    | CalEvent.next => true
    | _ => false

/-- Well-formed line lists: every piece is nonempty, only the last piece may
lack a trailing newline, and newlines occur only as terminators.  This is
the shape `readLinesList` produces and `flatten` inverts. -/
def GoodPieces : List (List Char) → Prop
  | [] => True
  | l :: rest =>
    ∃ core, '\n' ∉ core ∧
      ((l = core ++ ['\n'] ∧ GoodPieces rest) ∨ (l = core ∧ core ≠ [] ∧ rest = []))

/-! # Lemmas -/

/-! ## Digits -/

theorem foldl_digitsVal (ys : List Char) :
    ∀ a : ℕ, ys.foldl (fun a c => 10 * a + (c.toNat - 48)) a =
      a * 10 ^ ys.length + digitsVal ys := by
  induction ys with
  | nil => intro a; simp [digitsVal]
  | cons c t ih =>
    intro a
    have hd : digitsVal (c :: t) = (c.toNat - 48) * 10 ^ t.length + digitsVal t := by
      have : digitsVal (c :: t) = t.foldl (fun a c => 10 * a + (c.toNat - 48)) (c.toNat - 48) := by
        simp [digitsVal]
      rw [this, ih]
    simp only [List.foldl_cons]
    rw [ih, hd, List.length_cons]
    ring

theorem digitsVal_append (xs ys : List Char) :
    digitsVal (xs ++ ys) = digitsVal xs * 10 ^ ys.length + digitsVal ys := by
  have : digitsVal (xs ++ ys) =
      ys.foldl (fun a c => 10 * a + (c.toNat - 48)) (digitsVal xs) := by
    simp [digitsVal, List.foldl_append]
  rw [this, foldl_digitsVal]

theorem digitChar_isDigit {d : ℕ} (h : d < 10) : isDigitChar (digitChar d) = true := by
  interval_cases d <;> decide

theorem digitChar_toNat {d : ℕ} (h : d < 10) : (digitChar d).toNat - 48 = d := by
  interval_cases d <;> decide

theorem isDigitChar_not_ws {c : Char} (h : isDigitChar c = true) : isWsChar c = false := by
  rw [Bool.eq_false_iff]
  intro hw
  simp only [isWsChar, Bool.or_eq_true, decide_eq_true_eq] at hw
  rcases hw with ((((rfl | rfl) | rfl) | rfl) | rfl) | rfl <;> exact absurd h (by decide)

theorem isDigitChar_ne {c : Char} (h : isDigitChar c = true) :
    c ≠ '.' ∧ c ≠ '-' ∧ c ≠ '+' ∧ c ≠ ':' ∧ c ≠ ',' ∧ c ≠ '|' ∧ c ≠ '\n' ∧
      c ≠ 'e' ∧ c ≠ 'E' := by
  refine ⟨?_, ?_, ?_, ?_, ?_, ?_, ?_, ?_, ?_⟩ <;>
    (intro h'; subst h'; exact absurd h (by decide))

theorem digitsVal_natCharsAux : ∀ (fuel n : ℕ), n ≤ fuel →
    digitsVal (natCharsAux fuel n) = n := by
  intro fuel
  induction fuel with
  | zero => intro n h; interval_cases n; simp [natCharsAux, digitsVal]
  | succ f ih =>
    intro n h
    by_cases hn : n = 0
    · subst hn; simp [natCharsAux, digitsVal]
    · rw [natCharsAux, if_neg hn, digitsVal_append, ih (n / 10) (by omega)]
      have h10 : n % 10 < 10 := Nat.mod_lt _ (by norm_num)
      have : digitsVal [digitChar (n % 10)] = n % 10 := by
        simp [digitsVal, digitChar_toNat h10]
      rw [this]
      simp only [List.length_singleton, pow_one]
      omega

theorem digitsVal_natChars (n : ℕ) : digitsVal (natChars n) = n := by
  by_cases hn : n = 0
  · subst hn; decide
  · rw [natChars, if_neg hn]; exact digitsVal_natCharsAux n n le_rfl

theorem natCharsAux_all_digit : ∀ (fuel n : ℕ) (c : Char),
    c ∈ natCharsAux fuel n → isDigitChar c = true := by
  intro fuel
  induction fuel with
  | zero => intro n c h; simp [natCharsAux] at h
  | succ f ih =>
    intro n c h
    by_cases hn : n = 0
    · subst hn; simp [natCharsAux] at h
    · rw [natCharsAux, if_neg hn] at h
      rcases List.mem_append.mp h with h1 | h1
      · exact ih _ _ h1
      · rcases List.mem_singleton.mp h1 with rfl
        exact digitChar_isDigit (Nat.mod_lt _ (by norm_num))

theorem natChars_all_digit {n : ℕ} {c : Char} (h : c ∈ natChars n) :
    isDigitChar c = true := by
  by_cases hn : n = 0
  · subst hn; simp [natChars] at h; subst h; decide
  · rw [natChars, if_neg hn] at h; exact natCharsAux_all_digit n n c h

theorem natCharsAux_length_le : ∀ (fuel n k : ℕ), n < 10 ^ k →
    (natCharsAux fuel n).length ≤ k := by
  intro fuel
  induction fuel with
  | zero => intro n k _; simp [natCharsAux]
  | succ f ih =>
    intro n k h
    by_cases hn : n = 0
    · subst hn; simp [natCharsAux]
    · rw [natCharsAux, if_neg hn]
      have hk : k ≠ 0 := by
        intro hk0; subst hk0; simp at h; omega
      have : n / 10 < 10 ^ (k - 1) := by
        have h1 : 10 ^ k = 10 ^ (k - 1) * 10 := by
          rw [← pow_succ]; congr 1; omega
        rw [h1] at h
        exact Nat.div_lt_of_lt_mul (by omega)
      have := ih (n / 10) (k - 1) this
      simp only [List.length_append, List.length_singleton]
      omega

theorem natChars_ne_nil (n : ℕ) : natChars n ≠ [] := by
  by_cases hn : n = 0
  · subst hn; simp [natChars]
  · rw [natChars, if_neg hn]
    cases n with
    | zero => exact absurd rfl hn
    | succ m =>
      rw [natCharsAux, if_neg hn]
      simp

theorem natChars_length_le {n k : ℕ} (hk : 1 ≤ k) (h : n < 10 ^ k) :
    (natChars n).length ≤ k := by
  by_cases hn : n = 0
  · subst hn; simpa [natChars] using hk
  · rw [natChars, if_neg hn]; exact natCharsAux_length_le n n k h

theorem padZeros_length {k : ℕ} {l : List Char} (h : l.length ≤ k) :
    (padZeros k l).length = k := by
  simp [padZeros]; omega

theorem padZeros_all_digit {k : ℕ} {l : List Char}
    (h : ∀ c ∈ l, isDigitChar c = true) :
    ∀ c ∈ padZeros k l, isDigitChar c = true := by
  intro c hc
  rcases List.mem_append.mp hc with h1 | h1
  · rcases List.eq_of_mem_replicate h1 with rfl; decide
  · exact h c h1

theorem digitsVal_replicate_zero (j : ℕ) :
    digitsVal (List.replicate j '0') = 0 := by
  induction j with
  | zero => decide
  | succ m ih =>
    have : List.replicate (m + 1) '0' = List.replicate m '0' ++ ['0'] := by
      rw [List.replicate_succ']
    rw [this, digitsVal_append, ih]
    decide

theorem digitsVal_padZeros (k : ℕ) (l : List Char) :
    digitsVal (padZeros k l) = digitsVal l := by
  rw [padZeros, digitsVal_append, digitsVal_replicate_zero]
  ring

/-! ## Scanning and stripping -/

theorem takeWhile_all {α : Type} {p : α → Bool} :
    ∀ {l : List α}, (∀ c ∈ l, p c = true) → l.takeWhile p = l := by
  intro l
  induction l with
  | nil => intro _; rfl
  | cons c t ih =>
    intro h
    rw [List.takeWhile_cons, if_pos (h c (by simp))]
    rw [ih fun x hx => h x (by simp [hx])]

theorem dropWhile_all {α : Type} {p : α → Bool} :
    ∀ {l : List α}, (∀ c ∈ l, p c = true) → l.dropWhile p = [] := by
  intro l
  induction l with
  | nil => intro _; rfl
  | cons c t ih =>
    intro h
    rw [List.dropWhile_cons, if_pos (h c (by simp))]
    exact ih fun x hx => h x (by simp [hx])

theorem takeWhile_append_stop {α : Type} {p : α → Bool} {y : α} (hy : p y = false) :
    ∀ (xs : List α), (∀ c ∈ xs, p c = true) → ∀ (ys : List α),
      (xs ++ y :: ys).takeWhile p = xs ∧ (xs ++ y :: ys).dropWhile p = y :: ys := by
  intro xs
  induction xs with
  | nil =>
    intro _ ys
    constructor
    · simp [List.takeWhile_cons, hy]
    · simp [List.dropWhile_cons, hy]
  | cons c t ih =>
    intro h ys
    have hc := h c (by simp)
    have ht := ih (fun x hx => h x (by simp [hx])) ys
    constructor
    · simp only [List.cons_append, List.takeWhile_cons, if_pos hc, ht.1]
    · simp only [List.cons_append, List.dropWhile_cons, if_pos hc, ht.2]

theorem dropWhile_none {α : Type} {p : α → Bool} {l : List α}
    (h : ∀ c ∈ l, p c = false) : l.dropWhile p = l := by
  cases l with
  | nil => rfl
  | cons c t => rw [List.dropWhile_cons, if_neg (by simp [h c (by simp)])]

theorem dropWhile_head_false {α : Type} {p : α → Bool} {l : List α} {c : α}
    (h : l.head? = some c) (hc : p c = false) : l.dropWhile p = l := by
  cases l with
  | nil => rfl
  | cons a t =>
    rcases Option.some_injective _ h.symm ▸ (by rfl : (a :: t).head? = some a) with h'
    have : a = c := by
      rw [List.head?_cons] at h
      exact Option.some.inj h
    subst this
    rw [List.dropWhile_cons, if_neg (by simp [hc])]

theorem head?_dropWhile {α : Type} {p : α → Bool} :
    ∀ {l : List α} {c : α}, (l.dropWhile p).head? = some c → p c = false := by
  intro l
  induction l with
  | nil => intro c h; simp [List.dropWhile] at h
  | cons a t ih =>
    intro c h
    rw [List.dropWhile_cons] at h
    by_cases hp : p a
    · rw [if_pos hp] at h; exact ih h
    · rw [if_neg hp, List.head?_cons] at h
      rcases Option.some.inj h with rfl
      exact Bool.eq_false_iff.mpr hp

theorem mem_dropWhile {α : Type} {p : α → Bool} :
    ∀ {l : List α} {c : α}, c ∈ l.dropWhile p → c ∈ l := by
  intro l
  induction l with
  | nil => intro c h; simp [List.dropWhile] at h
  | cons a t ih =>
    intro c h
    rw [List.dropWhile_cons] at h
    by_cases hp : p a
    · rw [if_pos hp] at h; exact List.mem_cons_of_mem _ (ih h)
    · rw [if_neg hp] at h; exact h

theorem dropWhile_append_all {α : Type} {p : α → Bool} {a : List α}
    (h : ∀ c ∈ a, p c = true) (x : List α) :
    (a ++ x).dropWhile p = x.dropWhile p := by
  induction a with
  | nil => rfl
  | cons c t ih =>
    rw [List.cons_append, List.dropWhile_cons, if_pos (h c (by simp))]
    exact ih fun y hy => h y (by simp [hy])

theorem dropWhile_append_ne_nil {α : Type} {p : α → Bool} :
    ∀ {l : List α}, l.dropWhile p ≠ [] → ∀ (x : List α),
      (l ++ x).dropWhile p = l.dropWhile p ++ x := by
  intro l
  induction l with
  | nil => intro h; exact absurd rfl h
  | cons c t ih =>
    intro h x
    by_cases hp : p c
    · rw [List.dropWhile_cons, if_pos hp] at h
      rw [List.cons_append, List.dropWhile_cons, if_pos hp, ih h,
        List.dropWhile_cons, if_pos hp]
    · rw [List.cons_append, List.dropWhile_cons, if_neg hp,
        List.dropWhile_cons, if_neg hp]
      simp

theorem mem_stripList {l : List Char} {c : Char} (h : c ∈ stripList l) : c ∈ l := by
  unfold stripList at h
  rw [List.mem_reverse] at h
  have h1 := mem_dropWhile h
  rw [List.mem_reverse] at h1
  exact mem_dropWhile h1

theorem stripList_all_not_ws {l : List Char} (h : ∀ c ∈ l, isWsChar c = false) :
    stripList l = l := by
  unfold stripList
  rw [dropWhile_none h, dropWhile_none (by intro c hc; exact h c (List.mem_reverse.mp hc)),
    List.reverse_reverse]

theorem stripList_pad {a b x : List Char}
    (ha : ∀ c ∈ a, isWsChar c = true) (hb : ∀ c ∈ b, isWsChar c = true) :
    stripList (a ++ x ++ b) = stripList x := by
  unfold stripList
  rw [List.append_assoc, dropWhile_append_all ha]
  by_cases h : x.dropWhile isWsChar = []
  · have hx : ∀ c ∈ x, isWsChar c = true := List.dropWhile_eq_nil_iff.mp h
    rw [dropWhile_append_all hx, dropWhile_all hb, h]
  · rw [dropWhile_append_ne_nil h, List.reverse_append,
      dropWhile_append_all (by intro c hc; exact hb c (List.mem_reverse.mp hc))]

theorem stripList_idem (l : List Char) : stripList (stripList l) = stripList l := by
  rcases hy : l.dropWhile isWsChar with _ | ⟨c, t⟩
  · unfold stripList
    rw [hy]
    rfl
  · have hc : isWsChar c = false := head?_dropWhile (by rw [hy]; rfl)
    have hz : ∃ w, (c :: t).reverse.dropWhile isWsChar = w ++ [c] := by
      rw [List.reverse_cons]
      by_cases ht : t.reverse.dropWhile isWsChar = []
      · refine ⟨[], ?_⟩
        rw [dropWhile_append_all (List.dropWhile_eq_nil_iff.mp ht),
          List.dropWhile_cons, if_neg (by simp [hc])]
        simp
      · exact ⟨_, dropWhile_append_ne_nil ht [c]⟩
    rcases hz with ⟨w, hw⟩
    have hstrip : stripList l = (w ++ [c]).reverse := by
      unfold stripList; rw [hy, hw]
    rw [hstrip]
    have hrev : (w ++ [c]).reverse = c :: w.reverse := by simp
    rw [hrev]
    unfold stripList
    rw [List.dropWhile_cons, if_neg (by simp [hc])]
    rw [List.reverse_cons, ← hrev, List.reverse_reverse]
    have hzhead : ∀ d, (w ++ [c]).head? = some d → isWsChar d = false := by
      intro d hd
      have hd2 : ((c :: t).reverse.dropWhile isWsChar).head? = some d := by
        rw [hw]; exact hd
      exact head?_dropWhile hd2
    have : (w ++ [c]).dropWhile isWsChar = w ++ [c] := by
      cases hww : w ++ [c] with
      | nil => simp at hww
      | cons d u =>
        exact hww ▸ dropWhile_head_false (by rw [hww]; rfl) (hzhead d (by rw [hww]; rfl))
    rw [this]

theorem stripList_eq_self_of_ends {l : List Char}
    (hh : ∀ c, l.head? = some c → isWsChar c = false)
    (hl : ∀ c, l.getLast? = some c → isWsChar c = false) :
    stripList l = l := by
  cases l with
  | nil => rfl
  | cons c t =>
    unfold stripList
    rw [List.dropWhile_cons, if_neg (by simp [hh c rfl])]
    have hlast : ((c :: t).reverse).dropWhile isWsChar = (c :: t).reverse := by
      cases hr : (c :: t).reverse with
      | nil => simp at hr
      | cons d u =>
        refine hr ▸ dropWhile_head_false (by rw [hr]; rfl) ?_
        apply hl
        rw [← List.head?_reverse, hr]
        rfl
    rw [hlast, List.reverse_reverse]

/-! ## Splitting on a separator -/

theorem splitCh_ne_nil (c : Char) : ∀ (l : List Char), splitCh c l ≠ [] := by
  intro l
  induction l with
  | nil => simp [splitCh]
  | cons x xs ih =>
    rw [splitCh]
    rcases h : splitCh c xs with _ | ⟨h1, t1⟩
    · simp
    · by_cases hx : x = c <;> simp [hx]

theorem splitCh_no_sep {c : Char} :
    ∀ {l : List Char}, c ∉ l → splitCh c l = [l] := by
  intro l
  induction l with
  | nil => intro _; rfl
  | cons x xs ih =>
    intro h
    have hx : x ≠ c := fun he => h (by simp [he])
    have hxs : c ∉ xs := fun hm => h (by simp [hm])
    rw [splitCh, ih hxs]
    simp [hx]

theorem splitCh_append_sep {c : Char} :
    ∀ {xs : List Char}, c ∉ xs → ∀ (ys : List Char),
      splitCh c (xs ++ c :: ys) = xs :: splitCh c ys := by
  intro xs
  induction xs with
  | nil =>
    intro _ ys
    rw [List.nil_append, splitCh]
    rcases h : splitCh c ys with _ | ⟨h1, t1⟩
    · exact absurd h (splitCh_ne_nil c ys)
    · simp
  | cons x t ih =>
    intro h ys
    have hx : x ≠ c := fun he => h (by simp [he])
    have ht : c ∉ t := fun hm => h (by simp [hm])
    rw [List.cons_append, splitCh, ih ht ys]
    simp [hx]

theorem splitCh_piece_no_sep {c : Char} :
    ∀ {l : List Char} {piece : List Char}, piece ∈ splitCh c l → c ∉ piece := by
  intro l
  induction l with
  | nil =>
    intro piece h
    rw [splitCh, List.mem_singleton] at h
    subst h; simp
  | cons x xs ih =>
    intro piece h
    rw [splitCh] at h
    rcases hsp : splitCh c xs with _ | ⟨h1, t1⟩
    · exact absurd hsp (splitCh_ne_nil c xs)
    · rw [hsp] at h
      by_cases hx : x = c
      · simp only [if_pos hx] at h
        rcases List.mem_cons.mp h with rfl | h2
        · simp
        · exact ih (hsp ▸ h2)
      · simp only [if_neg hx] at h
        rcases List.mem_cons.mp h with rfl | h2
        · intro hm
          rcases List.mem_cons.mp hm with he | hm2
          · exact hx he.symm
          · exact ih (hsp ▸ List.mem_cons_self h1 t1) hm2
        · exact ih (hsp ▸ List.mem_cons_of_mem h1 h2)

theorem splitCh_piece_mem {c : Char} :
    ∀ {l : List Char} {piece : List Char}, piece ∈ splitCh c l →
      ∀ {a}, a ∈ piece → a ∈ l := by
  intro l
  induction l with
  | nil =>
    intro piece h
    rw [splitCh, List.mem_singleton] at h
    subst h; intro a ha; exact ha
  | cons x xs ih =>
    intro piece h a ha
    rw [splitCh] at h
    rcases hsp : splitCh c xs with _ | ⟨h1, t1⟩
    · exact absurd hsp (splitCh_ne_nil c xs)
    · rw [hsp] at h
      by_cases hx : x = c
      · simp only [if_pos hx] at h
        rcases List.mem_cons.mp h with rfl | h2
        · simp at ha
        · exact List.mem_cons_of_mem _ (ih (hsp ▸ h2) ha)
      · simp only [if_neg hx] at h
        rcases List.mem_cons.mp h with rfl | h2
        · rcases List.mem_cons.mp ha with rfl | ha2
          · simp
          · exact List.mem_cons_of_mem _ (ih (hsp ▸ List.mem_cons_self h1 t1) ha2)
        · exact List.mem_cons_of_mem _ (ih (hsp ▸ List.mem_cons_of_mem h1 h2) ha)

/-! ## Lines -/

theorem readLines_no_nl :
    ∀ {xs : List Char}, '\n' ∉ xs → xs ≠ [] → readLinesList xs = [xs] := by
  intro xs
  induction xs with
  | nil => intro _ h; exact absurd rfl h
  | cons c r ih =>
    intro h _
    have hc : c ≠ '\n' := fun he => h (by simp [he])
    have hr : '\n' ∉ r := fun hm => h (by simp [hm])
    rw [readLinesList, if_neg hc]
    rcases hrr : r with _ | ⟨d, u⟩
    · rfl
    · rw [← hrr, ih hr (by rw [hrr]; simp)]

theorem readLines_append_nl {xs : List Char} (h : '\n' ∉ xs) (ys : List Char) :
    readLinesList (xs ++ '\n' :: ys) = (xs ++ ['\n']) :: readLinesList ys := by
  induction xs with
  | nil => simp [readLinesList]
  | cons c r ih =>
    have hc : c ≠ '\n' := fun he => h (by simp [he])
    have hr : '\n' ∉ r := fun hm => h (by simp [hm])
    rw [List.cons_append, readLinesList, if_neg hc, ih hr]
    simp

theorem goodPieces_readLines : ∀ (l : List Char), GoodPieces (readLinesList l) := by
  intro l
  induction l with
  | nil => exact trivial
  | cons c r ih =>
    rw [readLinesList]
    by_cases hc : c = '\n'
    · rw [if_pos hc]
      exact ⟨[], by simp, Or.inl ⟨by simp [hc], ih⟩⟩
    · rw [if_neg hc]
      rcases hr : readLinesList r with _ | ⟨h1, t1⟩
      · exact ⟨[c], by intro hm; exact hc (List.mem_singleton.mp hm).symm,
          Or.inr ⟨rfl, by simp, rfl⟩⟩
      · rw [hr] at ih
        rcases ih with ⟨core, hcore, hcase⟩
        have hmem : '\n' ∉ c :: core := by
          intro hm
          rcases List.mem_cons.mp hm with he | hm2
          · exact hc he.symm
          · exact hcore hm2
        rcases hcase with ⟨he, hg⟩ | ⟨he, hne, hrest⟩
        · exact ⟨c :: core, hmem, Or.inl ⟨by simp [he], hg⟩⟩
        · exact ⟨c :: core, hmem, Or.inr ⟨by simp [he], by simp, hrest⟩⟩

theorem readLines_flatten :
    ∀ (pieces : List (List Char)), GoodPieces pieces →
      readLinesList pieces.flatten = pieces := by
  intro pieces
  induction pieces with
  | nil => intro _; rfl
  | cons l rest ih =>
    intro hg
    rcases hg with ⟨core, hcore, hcase⟩
    rcases hcase with ⟨he, hg⟩ | ⟨he, hne, hrest⟩
    · subst he
      rw [List.flatten_cons, List.append_assoc, List.singleton_append,
        readLines_append_nl hcore, ih hg]
    · subst he hrest
      rw [List.flatten_cons, List.flatten_nil, List.append_nil,
        readLines_no_nl hcore hne]

theorem goodPieces_filterMap {f : List Char → Option (List Char)}
    (hf : ∀ l out, f l = some out →
      (∃ core, '\n' ∉ core ∧ out = core ++ ['\n']) ∨ out = l) :
    ∀ {pieces : List (List Char)}, GoodPieces pieces →
      GoodPieces (pieces.filterMap f) := by
  intro pieces
  induction pieces with
  | nil => intro _; exact trivial
  | cons l rest ih =>
    intro hg
    rcases hg with ⟨core, hcore, hcase⟩
    rcases hcase with ⟨he, hg⟩ | ⟨he, hne, hrest⟩
    · rcases hout : f l with _ | out
      · rw [List.filterMap_cons, hout]
        exact ih hg
      · rw [List.filterMap_cons, hout]
        rcases hf l out hout with ⟨core2, hc2, he2⟩ | he2
        · exact ⟨core2, hc2, Or.inl ⟨he2, ih hg⟩⟩
        · exact ⟨core, hcore, Or.inl ⟨he2.trans he, ih hg⟩⟩
    · subst hrest
      rcases hout : f l with _ | out
      · rw [List.filterMap_cons, hout]
        exact trivial
      · rw [List.filterMap_cons, hout, List.filterMap_nil]
        rcases hf l out hout with ⟨core2, hc2, he2⟩ | he2
        · exact ⟨core2, hc2, Or.inl ⟨he2, trivial⟩⟩
        · exact ⟨core, hcore, Or.inr ⟨he2.trans he, hne, rfl⟩⟩

theorem goodPieces_all_nl :
    ∀ {pieces : List (List Char)},
      (∀ l ∈ pieces, ∃ core, '\n' ∉ core ∧ l = core ++ ['\n']) →
      GoodPieces pieces := by
  intro pieces
  induction pieces with
  | nil => intro _; exact trivial
  | cons l rest ih =>
    intro h
    rcases h l (by simp) with ⟨core, hc, he⟩
    exact ⟨core, hc, Or.inl ⟨he, ih fun x hx => h x (by simp [hx])⟩⟩

/-! ## Dictionary operations -/

theorem lookup_dictInsert_self {β : Type} (k : String) (v : β) :
    ∀ (m : List (String × β)), (dictInsert k v m).lookup k = some v := by
  intro m
  induction m with
  | nil => exact List.lookup_cons_self
  | cons e rest ih =>
    obtain ⟨a, b⟩ := e
    rw [dictInsert]
    by_cases he : a = k
    · rw [if_pos he]; exact List.lookup_cons_self
    · rw [if_neg he, List.lookup_cons]
      have hb : (k == a) = false := beq_eq_false_iff_ne.mpr fun hk => he hk.symm
      rw [hb]
      exact ih

theorem lookup_dictInsert_ne {β : Type} {k k' : String} (h : k' ≠ k) (v : β) :
    ∀ (m : List (String × β)), (dictInsert k v m).lookup k' = m.lookup k' := by
  intro m
  have hb : (k' == k) = false := beq_eq_false_iff_ne.mpr h
  induction m with
  | nil => rw [dictInsert, List.lookup_cons, hb, List.lookup_nil]
  | cons e rest ih =>
    obtain ⟨a, b⟩ := e
    rw [dictInsert]
    by_cases he : a = k
    · subst he
      rw [if_pos rfl, List.lookup_cons, List.lookup_cons, hb]
    · rw [if_neg he, List.lookup_cons, List.lookup_cons]
      by_cases he' : (k' == a) = true
      · rw [he']
      · rw [Bool.not_eq_true] at he'
        rw [he']
        exact ih

theorem keys_dictInsert {β : Type} (k : String) (v : β) :
    ∀ (m : List (String × β)) (a : String),
      a ∈ (dictInsert k v m).map Prod.fst ↔ a = k ∨ a ∈ m.map Prod.fst := by
  intro m
  induction m with
  | nil => intro a; simp [dictInsert]
  | cons e rest ih =>
    intro x
    obtain ⟨a, b⟩ := e
    rw [dictInsert]
    by_cases he : a = k
    · rw [if_pos he]
      subst he
      simp only [List.map_cons, List.mem_cons]
      tauto
    · rw [if_neg he]
      simp only [List.map_cons, List.mem_cons, ih]
      tauto

theorem dictInsert_fresh {β : Type} {k : String} (v : β) :
    ∀ {m : List (String × β)}, k ∉ m.map Prod.fst →
      dictInsert k v m = m ++ [(k, v)] := by
  intro m
  induction m with
  | nil => intro _; rfl
  | cons e rest ih =>
    intro h
    have he : e.1 ≠ k := fun hk => h (by simp [hk])
    rw [dictInsert, if_neg he, ih fun hm => h (by simp [hm])]
    simp

/-! ## Decimal denominators -/

theorem minPow10_dvd {d : ℕ} (h : ∃ j, d ∣ 10 ^ j) : d ∣ 10 ^ minPow10 d := by
  rcases h with ⟨j, hj⟩
  have h2 : (10 : ℕ) ^ j = 2 ^ j * 5 ^ j := by
    rw [← mul_pow]
    norm_num
  rw [h2] at hj
  obtain ⟨d₁, d₂, hd₁, hd₂, hde⟩ := exists_dvd_and_dvd_of_dvd_mul hj
  obtain ⟨a, _, rfl⟩ := (Nat.dvd_prime_pow Nat.prime_two).mp hd₁
  obtain ⟨b, _, rfl⟩ := (Nat.dvd_prime_pow (by norm_num : Nat.Prime 5)).mp hd₂
  subst hde
  have ha : a < 2 ^ a := Nat.lt_two_pow a
  have hb : b < 5 ^ b := Nat.lt_pow_self (by norm_num) b
  have h2a : 2 ^ a ≤ 2 ^ a * 5 ^ b := Nat.le_mul_of_pos_right _ (by positivity)
  have h5b : 5 ^ b ≤ 2 ^ a * 5 ^ b := Nat.le_mul_of_pos_left _ (by positivity)
  have hdvd : 2 ^ a * 5 ^ b ∣ 10 ^ max a b := by
    have h10 : (10 : ℕ) ^ max a b = 2 ^ max a b * 5 ^ max a b := by
      rw [← mul_pow]
      norm_num
    rw [h10]
    exact mul_dvd_mul (pow_dvd_pow 2 (le_max_left a b)) (pow_dvd_pow 5 (le_max_right a b))
  have hsome : (((List.range (2 ^ a * 5 ^ b + 1)).find?
      fun k => decide (2 ^ a * 5 ^ b ∣ 10 ^ k)).isSome) := by
    rw [List.find?_isSome]
    exact ⟨max a b, List.mem_range.mpr (by omega), by simpa using hdvd⟩
  obtain ⟨y, hy⟩ := Option.isSome_iff_exists.mp hsome
  have hp := List.find?_some hy
  rw [minPow10, hy, Option.getD_some]
  simpa using hp

/-! ## Parsing back printed decimals -/

theorem natChars_single {d : ℕ} (h : d < 10) : natChars d = [digitChar d] := by
  interval_cases d <;> decide

theorem pyFloatUnsigned_printed (a b k : ℕ) (hk : 1 ≤ k) (hb : b < 10 ^ k) :
    pyFloatUnsigned (natChars a ++ '.' :: padZeros k (natChars b)) =
      some (((a * 10 ^ k + b : ℕ) : ℚ) / (10 : ℚ) ^ k) := by
  have hdig : ∀ c ∈ natChars a, isDigitChar c = true := fun c hc => natChars_all_digit hc
  have hpadd : ∀ c ∈ padZeros k (natChars b), isDigitChar c = true :=
    padZeros_all_digit fun c hc => natChars_all_digit hc
  have hdot : isDigitChar '.' = false := by decide
  have htw := takeWhile_append_stop hdot (natChars a) hdig (padZeros k (natChars b))
  have hlen : (padZeros k (natChars b)).length = k :=
    padZeros_length (natChars_length_le hk hb)
  simp only [pyFloatUnsigned, htw.1, htw.2]
  rw [takeWhile_all hpadd, dropWhile_all hpadd]
  rw [if_neg (by simp [natChars_ne_nil a])]
  rw [digitsVal_append, digitsVal_natChars, digitsVal_padZeros, digitsVal_natChars, hlen]
  simp only [pyExpPart]

theorem ratRepr_data (q : ℚ) : (ratRepr q).data =
    (if q < 0 then ['-'] else []) ++
      natChars (q.num.natAbs * 10 ^ max 1 (minPow10 q.den) / q.den /
        10 ^ max 1 (minPow10 q.den)) ++
      '.' :: padZeros (max 1 (minPow10 q.den))
        (natChars (q.num.natAbs * 10 ^ max 1 (minPow10 q.den) / q.den %
          10 ^ max 1 (minPow10 q.den))) := rfl

theorem printed_chars {a k b : ℕ} {c : Char}
    (h : c ∈ natChars a ++ '.' :: padZeros k (natChars b)) :
    isDigitChar c = true ∨ c = '.' := by
  rcases List.mem_append.mp h with h1 | h1
  · exact Or.inl (natChars_all_digit h1)
  · rcases List.mem_cons.mp h1 with rfl | h2
    · exact Or.inr rfl
    · exact Or.inl (padZeros_all_digit (fun x hx => natChars_all_digit hx) c h2)

theorem pyFloatCore_printed_pos (a b k : ℕ) (hk : 1 ≤ k) (hb : b < 10 ^ k) :
    pyFloatCore (natChars a ++ '.' :: padZeros k (natChars b)) =
      some (((a * 10 ^ k + b : ℕ) : ℚ) / (10 : ℚ) ^ k) := by
  rcases hnc : natChars a with _ | ⟨c, cs⟩
  · exact absurd hnc (natChars_ne_nil a)
  · have hc : isDigitChar c = true := natChars_all_digit (by rw [hnc]; simp)
    have hne := isDigitChar_ne hc
    rw [List.cons_append, pyFloatCore, if_neg hne.2.2.1, if_neg hne.2.1,
      ← List.cons_append, ← hnc]
    exact pyFloatUnsigned_printed a b k hk hb

theorem pyFloatCore_printed_neg (a b k : ℕ) (hk : 1 ≤ k) (hb : b < 10 ^ k) :
    pyFloatCore ('-' :: (natChars a ++ '.' :: padZeros k (natChars b))) =
      some (-(((a * 10 ^ k + b : ℕ) : ℚ) / (10 : ℚ) ^ k)) := by
  rw [pyFloatCore, if_neg (by decide), if_pos rfl, pyFloatUnsigned_printed a b k hk hb]
  rfl

theorem pyFloat?_ratRepr {q : ℚ} (h : DecimalRat q) : pyFloat? (ratRepr q) = some q := by
  have hdvd : (q.den : ℕ) ∣ 10 ^ max 1 (minPow10 q.den) :=
    (minPow10_dvd h).trans (pow_dvd_pow 10 (le_max_right 1 _))
  have hchars : ∀ c ∈ (ratRepr q).data, isWsChar c = false := by
    intro c hc
    rw [ratRepr_data] at hc
    rcases List.mem_append.mp hc with h1 | h1
    · rcases List.mem_append.mp h1 with h2 | h2
      · by_cases hq : q < 0
        · rw [if_pos hq] at h2
          rcases List.mem_singleton.mp h2 with rfl
          decide
        · rw [if_neg hq] at h2
          simp at h2
      · exact isDigitChar_not_ws (natChars_all_digit h2)
    · rcases List.mem_cons.mp h1 with rfl | h2
      · decide
      · exact isDigitChar_not_ws
          (padZeros_all_digit (fun x hx => natChars_all_digit hx) c h2)
  have hval : ∀ a b : ℕ, a * 10 ^ max 1 (minPow10 q.den) + b =
      q.num.natAbs * 10 ^ max 1 (minPow10 q.den) / q.den →
      ((a * 10 ^ max 1 (minPow10 q.den) + b : ℕ) : ℚ) /
        (10 : ℚ) ^ max 1 (minPow10 q.den) = |q| := by
    intro a b hab
    have hnd : q.num.natAbs * 10 ^ max 1 (minPow10 q.den) / q.den * q.den =
        q.num.natAbs * 10 ^ max 1 (minPow10 q.den) :=
      Nat.div_mul_cancel (Dvd.dvd.mul_left hdvd _)
    rw [hab]
    have hden : ((q.den : ℕ) : ℚ) ≠ 0 := by
      exact_mod_cast q.den_pos.ne'
    have habs : (q.num.natAbs : ℚ) / q.den = |q| := by
      have h1 : (q.num.natAbs : ℚ) = |(q.num : ℚ)| := by
        rw [Nat.cast_natAbs, Int.cast_abs]
      have h2 : ((q.den : ℕ) : ℚ) = |((q.den : ℕ) : ℚ)| :=
        (abs_of_pos (by exact_mod_cast q.den_pos)).symm
      rw [h1, h2, ← abs_div, Rat.num_div_den]
    rw [← habs, div_eq_div_iff (by positivity) hden]
    exact_mod_cast hnd
  unfold pyFloat?
  rw [stripList_all_not_ws hchars, ratRepr_data]
  have hmod : q.num.natAbs * 10 ^ max 1 (minPow10 q.den) / q.den %
      10 ^ max 1 (minPow10 q.den) < 10 ^ max 1 (minPow10 q.den) :=
    Nat.mod_lt _ (by positivity)
  have hdm := Nat.div_add_mod
    (q.num.natAbs * 10 ^ max 1 (minPow10 q.den) / q.den) (10 ^ max 1 (minPow10 q.den))
  by_cases hq : q < 0
  · rw [if_pos hq, List.singleton_append, List.cons_append,
      pyFloatCore_printed_neg _ _ _ (le_max_left 1 _) hmod,
      hval _ _ (by rw [Nat.mul_comm]; exact hdm), abs_of_neg hq, neg_neg]
  · rw [if_neg hq, List.nil_append,
      pyFloatCore_printed_pos _ _ _ (le_max_left 1 _) hmod,
      hval _ _ (by rw [Nat.mul_comm]; exact hdm), abs_of_nonneg (not_lt.mp hq)]

theorem fmt1_data (q : ℚ) : (fmt1 q).data =
    (if q < 0 then ['-'] else []) ++ natChars ((pyRound (|q| * 10)).toNat / 10) ++
      '.' :: padZeros 1 (natChars ((pyRound (|q| * 10)).toNat % 10)) := by
  have h10 : (pyRound (|q| * 10)).toNat % 10 < 10 := Nat.mod_lt _ (by norm_num)
  rw [natChars_single h10]
  rfl

theorem pyFloat?_fmt1 (q : ℚ) : pyFloat? (fmt1 q) = some (dec1 q) := by
  have h10 : (pyRound (|q| * 10)).toNat % 10 < 10 := Nat.mod_lt _ (by norm_num)
  have hchars : ∀ c ∈ (fmt1 q).data, isWsChar c = false := by
    intro c hc
    rw [fmt1_data] at hc
    rcases List.mem_append.mp hc with h1 | h1
    · rcases List.mem_append.mp h1 with h2 | h2
      · by_cases hq : q < 0
        · rw [if_pos hq] at h2
          rcases List.mem_singleton.mp h2 with rfl
          decide
        · rw [if_neg hq] at h2
          simp at h2
      · exact isDigitChar_not_ws (natChars_all_digit h2)
    · rcases List.mem_cons.mp h1 with rfl | h2
      · decide
      · exact isDigitChar_not_ws
          (padZeros_all_digit (fun x hx => natChars_all_digit hx) c h2)
  have hdm := Nat.div_add_mod (pyRound (|q| * 10)).toNat 10
  have hval : (((pyRound (|q| * 10)).toNat / 10 * 10 ^ 1 +
      (pyRound (|q| * 10)).toNat % 10 : ℕ) : ℚ) / (10 : ℚ) ^ 1 =
      ((pyRound (|q| * 10)).toNat : ℚ) / 10 := by
    norm_num
    congr 1
    exact_mod_cast by omega
  unfold pyFloat?
  rw [stripList_all_not_ws hchars, fmt1_data]
  by_cases hq : q < 0
  · rw [if_pos hq, List.singleton_append, List.cons_append,
      pyFloatCore_printed_neg _ _ 1 le_rfl (by simpa using h10), hval]
    rw [dec1, if_pos hq]
    congr 1
    ring
  · rw [if_neg hq, List.nil_append,
      pyFloatCore_printed_pos _ _ 1 le_rfl (by simpa using h10), hval]
    rw [dec1, if_neg hq]
    congr 1
    ring

/-! ## Clamp bounds -/

theorem clamp_bounds (v : ℚ) : 0 ≤ clamp v ∧ clamp v ≤ 255 := by
  unfold clamp
  exact ⟨le_max_left 0 _, max_le (by norm_num) (min_le_right _ _)⟩

theorem mem_dictInsert {β : Type} {k : String} {v : β} :
    ∀ {m : List (String × β)} {p : String × β},
      p ∈ dictInsert k v m → p = (k, v) ∨ p ∈ m := by
  intro m
  induction m with
  | nil =>
    intro p h
    rw [dictInsert, List.mem_singleton] at h
    exact Or.inl h
  | cons e rest ih =>
    intro p h
    obtain ⟨a, b⟩ := e
    rw [dictInsert] at h
    by_cases he : a = k
    · rw [if_pos he] at h
      rcases List.mem_cons.mp h with rfl | h2
      · exact Or.inl rfl
      · exact Or.inr (List.mem_cons_of_mem _ h2)
    · rw [if_neg he] at h
      rcases List.mem_cons.mp h with rfl | h2
      · exact Or.inr (List.mem_cons_self _ _)
      · rcases ih h2 with h3 | h3
        · exact Or.inl h3
        · exact Or.inr (List.mem_cons_of_mem _ h3)

/-! ## The wizard runs -/

theorem countNext_nil : countNext [] = 0 := rfl

theorem countNext_cons_wb (v : ℚ) (es : List CalEvent) :
    countNext (CalEvent.wb v :: es) = countNext es := by
  simp [countNext, List.countP_cons]

theorem countNext_cons_tint (v : ℚ) (es : List CalEvent) :
    countNext (CalEvent.tint v :: es) = countNext es := by
  simp [countNext, List.countP_cons]

theorem countNext_cons_next (es : List CalEvent) :
    countNext (CalEvent.next :: es) = countNext es + 1 := by
  simp [countNext, List.countP_cons]

theorem calRunFrom_cons (s : CalState) (ws : List (List (String × ℚ × ℚ)))
    (e : CalEvent) (es : List CalEvent) :
    calRunFrom (s, ws) (e :: es) =
      calRunFrom ((calStep s e).1, ws ++ (calStep s e).2.toList) es := rfl

theorem calStep_next (s : CalState) :
    calStep s CalEvent.next =
      if s.current_index + 1 < brightness_levels.length then
        (⟨dictInsert (levelName s.current_index) (s.current_wb, s.current_tint)
            s.calibration_values, s.current_index + 1, 0, 0⟩, none)
      else
        (⟨dictInsert (levelName s.current_index) (s.current_wb, s.current_tint)
            s.calibration_values, s.current_index + 1,
          s.current_wb, s.current_tint⟩,
          some (dictInsert (levelName s.current_index)
            (s.current_wb, s.current_tint) s.calibration_values)) := rfl

theorem brightness_levels_length : brightness_levels.length = 5 := rfl

theorem levelName_fresh {i : ℕ} (h : i ≤ 4) :
    levelName i ∉ ((brightness_levels.map Prod.fst).take i) := by
  interval_cases i <;> decide

theorem take_levelNames_snoc {i : ℕ} (h : i ≤ 4) :
    (brightness_levels.map Prod.fst).take i ++ [levelName i] =
      (brightness_levels.map Prod.fst).take (i + 1) := by
  interval_cases i <;> decide

theorem calSteps_invariant :
    ∀ (es : List CalEvent) (s : CalState) (ws : List (List (String × ℚ × ℚ))),
      s.calibration_values.map Prod.fst =
        (brightness_levels.map Prod.fst).take s.current_index →
      s.current_index + countNext es ≤ 5 →
      (calRunFrom (s, ws) es).1.current_index = s.current_index + countNext es ∧
      (calRunFrom (s, ws) es).1.calibration_values.map Prod.fst =
        (brightness_levels.map Prod.fst).take (s.current_index + countNext es) ∧
      (calRunFrom (s, ws) es).2 = ws ++
        (if s.current_index + countNext es = 5 ∧ 1 ≤ countNext es
          then [(calRunFrom (s, ws) es).1.calibration_values] else []) ∧
      (countNext es = 0 →
        (calRunFrom (s, ws) es).1.calibration_values = s.calibration_values) := by
  intro es
  induction es with
  | nil =>
    intro s ws hkeys hbound
    rw [countNext_nil]
    refine ⟨by simp [calRunFrom], by simpa [calRunFrom] using hkeys, ?_, fun _ => rfl⟩
    rw [if_neg (by omega)]
    simp [calRunFrom]
  | cons e es ih =>
    intro s ws hkeys hbound
    cases e with
    | wb v =>
      rw [calRunFrom_cons]
      simp only [calStep, Option.toList_none, List.append_nil, countNext_cons_wb]
      exact ih { s with current_wb := v } ws hkeys
        (by rwa [countNext_cons_wb] at hbound)
    | tint v =>
      rw [calRunFrom_cons]
      simp only [calStep, Option.toList_none, List.append_nil, countNext_cons_tint]
      exact ih { s with current_tint := v } ws hkeys
        (by rwa [countNext_cons_tint] at hbound)
    | next =>
      rw [calRunFrom_cons, calStep_next, brightness_levels_length,
        countNext_cons_next]
      rw [countNext_cons_next] at hbound
      have hidx : s.current_index ≤ 4 := by omega
      have hfresh : levelName s.current_index ∉
          s.calibration_values.map Prod.fst := by
        rw [hkeys]; exact levelName_fresh hidx
      have hkeys' :
          (dictInsert (levelName s.current_index) (s.current_wb, s.current_tint)
            s.calibration_values).map Prod.fst =
          (brightness_levels.map Prod.fst).take (s.current_index + 1) := by
        rw [dictInsert_fresh _ hfresh, List.map_append, hkeys]
        exact take_levelNames_snoc hidx
      by_cases hlt : s.current_index + 1 < 5
      · rw [if_pos hlt]
        simp only [Option.toList_none, List.append_nil]
        obtain ⟨ih1, ih2, ih3, ih4⟩ :=
          ih ⟨dictInsert (levelName s.current_index) (s.current_wb, s.current_tint)
              s.calibration_values, s.current_index + 1, 0, 0⟩ ws hkeys'
            (by dsimp only; omega)
        dsimp only at ih1 ih2 ih3 ih4
        refine ⟨?_, ?_, ?_, ?_⟩
        · simp only [ih1]
          omega
        · simp only [ih2]
          have he : s.current_index + 1 + countNext es =
              s.current_index + (countNext es + 1) := by omega
          rw [he]
        · simp only [ih3]
          by_cases hcond : s.current_index + 1 + countNext es = 5
          · rw [if_pos (⟨hcond, by omega⟩ : _ ∧ _),
              if_pos (⟨by omega, by omega⟩ : _ ∧ _)]
          · rw [if_neg (by rintro ⟨h1, -⟩; omega),
              if_neg (by rintro ⟨h1, -⟩; omega)]
        · intro h0
          exact absurd h0 (by omega)
      · rw [if_neg hlt]
        have hidx4 : s.current_index = 4 := by omega
        have hcnt0 : countNext es = 0 := by omega
        simp only [Option.toList_some]
        obtain ⟨ih1, ih2, ih3, ih4⟩ :=
          ih ⟨dictInsert (levelName s.current_index) (s.current_wb, s.current_tint)
              s.calibration_values, s.current_index + 1,
              s.current_wb, s.current_tint⟩
            (ws ++ [dictInsert (levelName s.current_index)
              (s.current_wb, s.current_tint) s.calibration_values])
            hkeys' (by dsimp only; omega)
        dsimp only at ih1 ih2 ih3 ih4
        refine ⟨?_, ?_, ?_, ?_⟩
        · simp only [ih1]
          omega
        · simp only [ih2]
          have he : s.current_index + 1 + countNext es =
              s.current_index + (countNext es + 1) := by omega
          rw [he]
        · simp only [ih3]
          rw [if_neg (by rintro ⟨-, h2⟩; omega), if_pos (⟨by omega, by omega⟩ : _ ∧ _),
            List.append_nil, ih4 hcnt0]
        · intro h0
          exact absurd h0 (by omega)

theorem calSteps_range :
    ∀ (es : List CalEvent) (s : CalState) (ws : List (List (String × ℚ × ℚ))),
      (∀ e ∈ es, ∀ v : ℚ,
        e = CalEvent.wb v ∨ e = CalEvent.tint v → -50 ≤ v ∧ v ≤ 50) →
      -50 ≤ s.current_wb ∧ s.current_wb ≤ 50 →
      -50 ≤ s.current_tint ∧ s.current_tint ≤ 50 →
      (∀ p ∈ s.calibration_values,
        -50 ≤ p.2.1 ∧ p.2.1 ≤ 50 ∧ -50 ≤ p.2.2 ∧ p.2.2 ≤ 50) →
      ∀ p ∈ (calRunFrom (s, ws) es).1.calibration_values,
        -50 ≤ p.2.1 ∧ p.2.1 ≤ 50 ∧ -50 ≤ p.2.2 ∧ p.2.2 ≤ 50 := by
  intro es
  induction es with
  | nil =>
    intro s ws _ _ _ hvals
    simpa [calRunFrom] using hvals
  | cons e es ih =>
    intro s ws hes hwb htint hvals
    have hes' : ∀ e ∈ es, ∀ v : ℚ,
        e = CalEvent.wb v ∨ e = CalEvent.tint v → -50 ≤ v ∧ v ≤ 50 :=
      fun e he => hes e (List.mem_cons_of_mem _ he)
    cases e with
    | wb v =>
      rw [calRunFrom_cons]
      simp only [calStep, Option.toList_none, List.append_nil]
      exact ih { s with current_wb := v } ws hes'
        (hes _ (List.mem_cons_self _ _) v (Or.inl rfl)) htint hvals
    | tint v =>
      rw [calRunFrom_cons]
      simp only [calStep, Option.toList_none, List.append_nil]
      exact ih { s with current_tint := v } ws hes'
        hwb (hes _ (List.mem_cons_self _ _) v (Or.inr rfl)) hvals
    | next =>
      rw [calRunFrom_cons, calStep_next, brightness_levels_length]
      have hins : ∀ p ∈ dictInsert (levelName s.current_index)
          (s.current_wb, s.current_tint) s.calibration_values,
          -50 ≤ p.2.1 ∧ p.2.1 ≤ 50 ∧ -50 ≤ p.2.2 ∧ p.2.2 ≤ 50 := by
        intro p hp
        rcases mem_dictInsert hp with rfl | hp2
        · exact ⟨hwb.1, hwb.2, htint.1, htint.2⟩
        · exact hvals p hp2
      by_cases hlt : s.current_index + 1 < 5
      · rw [if_pos hlt]
        simp only [Option.toList_none, List.append_nil]
        exact ih ⟨dictInsert (levelName s.current_index)
            (s.current_wb, s.current_tint) s.calibration_values,
          s.current_index + 1, 0, 0⟩ ws hes' (by norm_num) (by norm_num) hins
      · rw [if_neg hlt]
        simp only [Option.toList_some]
        exact ih ⟨dictInsert (levelName s.current_index)
            (s.current_wb, s.current_tint) s.calibration_values,
          s.current_index + 1, s.current_wb, s.current_tint⟩ _ hes' hwb htint hins

/-! ## Loader loops -/

theorem calibStep_eq (m : List (String × ℚ × ℚ)) (line : List Char) :
    calibStep m line =
      match parseCalibLine (stripList line) with
      | some (k, w, t) => dictInsert k (w, t) m
      | none => m := by
  unfold calibStep
  by_cases hb : stripList line = []
  · rw [if_pos hb, hb]
    rfl
  · rw [if_neg hb]

theorem calib_fold_keys :
    ∀ (ls : List (List Char)) (acc : List (String × ℚ × ℚ)),
      (∀ k, k ∈ acc.map Prod.fst → k ∈ (ls.foldl calibStep acc).map Prod.fst) ∧
      (∀ line ∈ ls, ∀ k w t, parseCalibLine (stripList line) = some (k, w, t) →
        k ∈ (ls.foldl calibStep acc).map Prod.fst) ∧
      (∀ k, k ∈ (ls.foldl calibStep acc).map Prod.fst →
        k ∈ acc.map Prod.fst ∨
          ∃ line ∈ ls, ∃ w t, parseCalibLine (stripList line) = some (k, w, t)) := by
  intro ls
  induction ls with
  | nil =>
    intro acc
    exact ⟨fun k h => h, by simp, fun k h => Or.inl h⟩
  | cons line rest ih =>
    intro acc
    rw [List.foldl_cons]
    obtain ⟨ih1, ih2, ih3⟩ := ih (calibStep acc line)
    have hstep : ∀ (k : String), k ∈ acc.map Prod.fst →
        k ∈ (calibStep acc line).map Prod.fst := by
      intro k hk
      rw [calibStep_eq]
      rcases hp : parseCalibLine (stripList line) with _ | ⟨k', w, t⟩
      · exact hk
      · exact (keys_dictInsert _ _ _ _).mpr (Or.inr hk)
    refine ⟨fun k hk => ih1 k (hstep k hk), ?_, ?_⟩
    · intro l hl k w t hp
      rcases List.mem_cons.mp hl with rfl | hl2
      · apply ih1
        rw [calibStep_eq, hp]
        exact (keys_dictInsert _ _ _ _).mpr (Or.inl rfl)
      · exact ih2 l hl2 k w t hp
    · intro k hk
      rcases ih3 k hk with h1 | h1
      · rw [calibStep_eq] at h1
        rcases hp : parseCalibLine (stripList line) with _ | ⟨k', w, t⟩
        · rw [hp] at h1
          exact Or.inl h1
        · rw [hp] at h1
          rcases (keys_dictInsert _ _ _ _).mp h1 with rfl | h2
          · exact Or.inr ⟨line, List.mem_cons_self _ _, w, t, hp⟩
          · exact Or.inl h2
      · rcases h1 with ⟨l2, hl2, w, t, hp2⟩
        exact Or.inr ⟨l2, List.mem_cons_of_mem _ hl2, w, t, hp2⟩

theorem pyPipeParts_ne_nil (l : List Char) : pyPipeParts l ≠ [] := by
  intro h
  unfold pyPipeParts at h
  exact splitCh_ne_nil '|' l (List.map_eq_nil_iff.mp h)

theorem loadProfileLines_safe :
    ∀ (ls : List (List Char)) (acc : List (String × PhoneProfile)),
      (∀ line ∈ ls, profLineSafe line = true) →
      ∃ m, loadProfileLines ls acc = .ok m ∧
        (∀ k, k ∈ acc.map Prod.fst → k ∈ m.map Prod.fst) ∧
        (∀ line ∈ ls, ∀ name temp wbs tints rest,
          pyPipeParts (stripList line) = name :: temp :: wbs :: tints :: rest →
          name ∈ m.map Prod.fst) := by
  intro ls
  induction ls with
  | nil =>
    intro acc _
    exact ⟨acc, rfl, fun k h => h, by simp⟩
  | cons line rest ih =>
    intro acc hsafe
    have hsafe_line := hsafe line (List.mem_cons_self _ _)
    have hsafe' : ∀ l ∈ rest, profLineSafe l = true :=
      fun l hl => hsafe l (List.mem_cons_of_mem _ hl)
    by_cases hb : stripList line = []
    · obtain ⟨m, hm, hmono, hwf⟩ := ih acc hsafe'
      refine ⟨m, ?_, hmono, ?_⟩
      · simp only [loadProfileLines]
        rw [if_pos hb]
        exact hm
      · intro l hl name temp wbs tints rest2 hp
        rcases List.mem_cons.mp hl with rfl | hl2
        · rw [hb] at hp
          simp [pyPipeParts, splitCh] at hp
        · exact hwf l hl2 name temp wbs tints rest2 hp
    · rcases hparts : pyPipeParts (stripList line) with
        _ | ⟨name, _ | ⟨temp, _ | ⟨wbs, _ | ⟨tints, rest4⟩⟩⟩⟩
      · exact absurd hparts (pyPipeParts_ne_nil _)
      · obtain ⟨m, hm, hmono, hwf⟩ := ih acc hsafe'
        refine ⟨m, ?_, hmono, ?_⟩
        · simp only [loadProfileLines]
          rw [if_neg hb, hparts]
          exact hm
        · intro l hl n2 t2 w2 ti2 r2 hp
          rcases List.mem_cons.mp hl with rfl | hl2
          · rw [hparts] at hp
            simp at hp
          · exact hwf l hl2 n2 t2 w2 ti2 r2 hp
      · obtain ⟨m, hm, hmono, hwf⟩ := ih acc hsafe'
        refine ⟨m, ?_, hmono, ?_⟩
        · simp only [loadProfileLines]
          rw [if_neg hb, hparts]
          exact hm
        · intro l hl n2 t2 w2 ti2 r2 hp
          rcases List.mem_cons.mp hl with rfl | hl2
          · rw [hparts] at hp
            simp at hp
          · exact hwf l hl2 n2 t2 w2 ti2 r2 hp
      · obtain ⟨m, hm, hmono, hwf⟩ := ih acc hsafe'
        refine ⟨m, ?_, hmono, ?_⟩
        · simp only [loadProfileLines]
          rw [if_neg hb, hparts]
          exact hm
        · intro l hl n2 t2 w2 ti2 r2 hp
          rcases List.mem_cons.mp hl with rfl | hl2
          · rw [hparts] at hp
            simp at hp
          · exact hwf l hl2 n2 t2 w2 ti2 r2 hp
      · have hsafe2 : (parseCorr wbs).isSome = true ∧ (parseCorr tints).isSome = true := by
          unfold profLineSafe at hsafe_line
          rw [hparts] at hsafe_line
          rw [Bool.and_eq_true] at hsafe_line
          exact hsafe_line
        obtain ⟨w, hw⟩ := Option.isSome_iff_exists.mp hsafe2.1
        obtain ⟨t, ht⟩ := Option.isSome_iff_exists.mp hsafe2.2
        obtain ⟨m, hm, hmono, hwf⟩ :=
          ih (dictInsert name ⟨temp, w, t⟩ acc) hsafe'
        refine ⟨m, ?_, ?_, ?_⟩
        · simp only [loadProfileLines]
          rw [if_neg hb, hparts]
          simp only [hw, ht]
          exact hm
        · intro k hk
          exact hmono k ((keys_dictInsert _ _ _ _).mpr (Or.inr hk))
        · intro l hl n2 t2 w2 ti2 r2 hp
          rcases List.mem_cons.mp hl with rfl | hl2
          · have heq := hparts.symm.trans hp
            simp only [List.cons.injEq] at heq
            rw [← heq.1]
            exact hmono name ((keys_dictInsert _ _ _ _).mpr (Or.inl rfl))
          · exact hwf l hl2 n2 t2 w2 ti2 r2 hp

/-! ## The save transformation -/

theorem foldl_append_filterMap {α β : Type} (f : α → Option β) :
    ∀ (ls : List α) (acc : List β),
      ls.foldl (fun acc l => acc ++ (f l).toList) acc = acc ++ ls.filterMap f := by
  intro ls
  induction ls with
  | nil => intro acc; simp
  | cons l rest ih =>
    intro acc
    rw [List.foldl_cons, List.filterMap_cons, ih]
    rcases hf : f l with _ | x
    · simp [hf]
    · simp [hf]

theorem on_save_changes_eq (s : StageTwoState) (content : String)
    (h1 : s.phone_file ≠ "") (h2 : s.phone_file ≠ "No files found") :
    on_save_changes s content =
      ⟨((readLinesList content.data).filterMap
          (saveTransform s.phone_profile (stripList s.phone_temp.data)
            (fmt1 s.user_wb).data (fmt1 s.user_tint).data)).flatten⟩ := by
  unfold on_save_changes
  rw [if_neg (by push_neg; exact ⟨h1, h2⟩),
    foldl_append_filterMap
      (saveTransform s.phone_profile (stripList s.phone_temp.data)
        (fmt1 s.user_wb).data (fmt1 s.user_tint).data)
      (readLinesList content.data) [],
    List.nil_append]

theorem filterMap_eq_filter_map {α : Type} (f : α → Option α) (p : α → Bool) (g : α → α)
    (hf : ∀ l, (p l = false → f l = none) ∧ (p l = true → f l = some (g l))) :
    ∀ ls : List α, ls.filterMap f = (ls.filter p).map g := by
  intro ls
  induction ls with
  | nil => rfl
  | cons l rest ih =>
    rw [List.filterMap_cons, List.filter_cons]
    by_cases hp : p l = true
    · rw [(hf l).2 hp, if_pos hp, List.map_cons, ih]
    · rw [Bool.not_eq_true] at hp
      rw [(hf l).1 hp, hp, ih]
      simp

theorem saveTransform_blank (sel : String) (temp wb tint : List Char)
    {line : List Char} (hb : stripList line = []) :
    saveTransform sel temp wb tint line = none := by
  unfold saveTransform
  rw [if_pos hb]

theorem saveTransform_nonblank (sel : String) (temp wb tint : List Char)
    {line : List Char} (hb : stripList line ≠ []) :
    saveTransform sel temp wb tint line =
      some (if lineMatches sel line
        then profileLine sel.data temp wb tint else line) := by
  unfold saveTransform lineMatches
  rw [if_neg hb]
  rcases hparts : pyPipeParts (stripList line) with
    _ | ⟨name, _ | ⟨t2, _ | ⟨w2, _ | ⟨t3, rest4⟩⟩⟩⟩
  · exact absurd hparts (pyPipeParts_ne_nil _)
  · rfl
  · rfl
  · rfl
  · by_cases hns : name = sel
    · subst hns
      simp
    · simp [hns]

/-- C9 (amended): with a profile file selected, `on_save_changes` rewrites
every line whose first pipe-field equals the selected profile to the
freshly formatted line, writes every other nonblank line back unchanged
and in order, and drops blank lines from the file. -/
theorem c9_save_rewrites_matching_lines (s : StageTwoState) (content : String)
    (h1 : s.phone_file ≠ "") (h2 : s.phone_file ≠ "No files found") :
    on_save_changes s content =
      ⟨(((readLinesList content.data).filter fun l => !(stripList l).isEmpty).map
          fun l =>
            if lineMatches s.phone_profile l
            then profileLine s.phone_profile.data (stripList s.phone_temp.data)
              (fmt1 s.user_wb).data (fmt1 s.user_tint).data
            else l).flatten⟩ := by
  rw [on_save_changes_eq s content h1 h2]
  congr 2
  apply filterMap_eq_filter_map
  intro l
  constructor
  · intro hp
    have hp2 : (stripList l).isEmpty = true := by simpa using hp
    exact saveTransform_blank _ _ _ _ (List.isEmpty_iff.mp hp2)
  · intro hp
    have hp2 : ¬ (stripList l).isEmpty = true := by simpa using hp
    have hb : stripList l ≠ [] := by
      intro h0
      rw [h0] at hp2
      simp at hp2
    exact saveTransform_nonblank _ _ _ _ hb

/-! ## More end-of-list facts -/

theorem head?_append_left {α : Type} {a : List α} (ha : a ≠ []) (b : List α) :
    (a ++ b).head? = a.head? := by
  cases a with
  | nil => exact absurd rfl ha
  | cons c t => rfl

theorem getLast?_append_right {α : Type} {b : List α} (hb : b ≠ []) (a : List α) :
    (a ++ b).getLast? = b.getLast? := by
  rw [← List.head?_reverse, ← List.head?_reverse, List.reverse_append]
  exact head?_append_left (by simpa using hb) _

theorem stripList_snoc_ws {c : Char} (hc : isWsChar c = true) (x : List Char) :
    stripList (x ++ [c]) = stripList x := by
  have h := @stripList_pad [] [c] x (by intro d hd; simp at hd)
    (by
      intro d hd
      rcases List.mem_singleton.mp hd with rfl
      exact hc)
  simpa using h

theorem stripList_cons_ws {c : Char} (hc : isWsChar c = true) (x : List Char) :
    stripList (c :: x) = stripList x := by
  have h := @stripList_pad [c] [] x
    (by
      intro d hd
      rcases List.mem_singleton.mp hd with rfl
      exact hc)
    (by intro d hd; simp at hd)
  simpa using h

theorem length_dropWhile_le {α : Type} (p : α → Bool) :
    ∀ l : List α, (l.dropWhile p).length ≤ l.length := by
  intro l
  induction l with
  | nil => simp
  | cons c t ih =>
    rw [List.dropWhile_cons]
    by_cases hp : p c
    · rw [if_pos hp]
      exact le_trans ih (by simp)
    · rw [if_neg hp]

theorem stripList_length_le (l : List Char) : (stripList l).length ≤ l.length := by
  unfold stripList
  calc ((l.dropWhile isWsChar).reverse.dropWhile isWsChar).reverse.length
      = ((l.dropWhile isWsChar).reverse.dropWhile isWsChar).length := by
        rw [List.length_reverse]
    _ ≤ (l.dropWhile isWsChar).reverse.length := length_dropWhile_le _ _
    _ = (l.dropWhile isWsChar).length := by rw [List.length_reverse]
    _ ≤ l.length := length_dropWhile_le _ _

theorem trimmed_head {x : List Char} (hx : stripList x = x) :
    ∀ c, x.head? = some c → isWsChar c = false := by
  intro c hc
  cases x with
  | nil => simp at hc
  | cons d t =>
    rw [List.head?_cons] at hc
    rcases Option.some.inj hc with rfl
    by_contra hw
    rw [Bool.not_eq_false] at hw
    have h1 := stripList_cons_ws hw t
    rw [hx] at h1
    have h2 := stripList_length_le t
    rw [← h1] at h2
    simp at h2

theorem trimmed_last {x : List Char} (hx : stripList x = x) :
    ∀ c, x.getLast? = some c → isWsChar c = false := by
  intro c hc
  by_contra hw
  rw [Bool.not_eq_false] at hw
  have hne : x ≠ [] := by
    intro h0
    rw [h0] at hc
    simp at hc
  have hgl : x.getLast hne = c :=
    Option.some.inj ((List.getLast?_eq_getLast x hne).symm.trans hc)
  have hx2 : x.dropLast ++ [c] = x := by
    rw [← hgl]
    exact List.dropLast_append_getLast hne
  have h1 := stripList_snoc_ws hw x.dropLast
  rw [hx2, hx] at h1
  have h2 := stripList_length_le x.dropLast
  rw [← h1] at h2
  have h3 := List.length_dropLast x
  have h4 : 0 < x.length := List.length_pos.mpr hne
  omega

/-! ## Character sets of printed numbers -/

theorem mem_of_getLast? {α : Type} {l : List α} {c : α}
    (h : l.getLast? = some c) : c ∈ l := by
  have h2 : l.reverse.head? = some c := by rw [List.head?_reverse]; exact h
  cases hr : l.reverse with
  | nil => rw [hr] at h2; simp at h2
  | cons d t =>
    rw [hr, List.head?_cons] at h2
    have hcd : d = c := Option.some.inj h2
    have hm : c ∈ l.reverse := by
      rw [hr, ← hcd]
      exact List.mem_cons_self _ _
    exact List.mem_reverse.mp hm

theorem ratRepr_charset {q : ℚ} {c : Char} (h : c ∈ (ratRepr q).data) :
    isDigitChar c = true ∨ c = '.' ∨ c = '-' := by
  rw [ratRepr_data] at h
  rcases List.mem_append.mp h with h1 | h1
  · rcases List.mem_append.mp h1 with h2 | h2
    · by_cases hq : q < 0
      · rw [if_pos hq] at h2
        rcases List.mem_singleton.mp h2 with rfl
        exact Or.inr (Or.inr rfl)
      · rw [if_neg hq] at h2
        simp at h2
    · exact Or.inl (natChars_all_digit h2)
  · rcases List.mem_cons.mp h1 with rfl | h2
    · exact Or.inr (Or.inl rfl)
    · exact Or.inl (padZeros_all_digit (fun x hx => natChars_all_digit hx) c h2)

theorem ratRepr_not_ws {q : ℚ} {c : Char} (h : c ∈ (ratRepr q).data) :
    isWsChar c = false := by
  rcases ratRepr_charset h with hd | rfl | rfl
  · exact isDigitChar_not_ws hd
  · decide
  · decide

theorem ratRepr_ne_seps {q : ℚ} {c : Char} (h : c ∈ (ratRepr q).data) :
    c ≠ ':' ∧ c ≠ ',' ∧ c ≠ '\n' ∧ c ≠ '|' := by
  rcases ratRepr_charset h with hd | rfl | rfl
  · have h2 := isDigitChar_ne hd
    exact ⟨h2.2.2.2.1, h2.2.2.2.2.1, h2.2.2.2.2.2.2.1, h2.2.2.2.2.2.1⟩
  · refine ⟨by decide, by decide, by decide, by decide⟩
  · refine ⟨by decide, by decide, by decide, by decide⟩

theorem ratRepr_ne_nil (q : ℚ) : (ratRepr q).data ≠ [] := by
  rw [ratRepr_data]
  intro h
  simp at h

theorem pyFloatCore_ratRepr {q : ℚ} (h : DecimalRat q) :
    pyFloatCore (ratRepr q).data = some q := by
  have h2 := pyFloat?_ratRepr h
  unfold pyFloat? at h2
  rwa [stripList_all_not_ws (fun c hc => ratRepr_not_ws hc)] at h2

theorem fmt1_charset {q : ℚ} {c : Char} (h : c ∈ (fmt1 q).data) :
    isDigitChar c = true ∨ c = '.' ∨ c = '-' := by
  rw [fmt1_data] at h
  rcases List.mem_append.mp h with h1 | h1
  · rcases List.mem_append.mp h1 with h2 | h2
    · by_cases hq : q < 0
      · rw [if_pos hq] at h2
        rcases List.mem_singleton.mp h2 with rfl
        exact Or.inr (Or.inr rfl)
      · rw [if_neg hq] at h2
        simp at h2
    · exact Or.inl (natChars_all_digit h2)
  · rcases List.mem_cons.mp h1 with rfl | h2
    · exact Or.inr (Or.inl rfl)
    · exact Or.inl (padZeros_all_digit (fun x hx => natChars_all_digit hx) c h2)

theorem fmt1_not_ws {q : ℚ} {c : Char} (h : c ∈ (fmt1 q).data) :
    isWsChar c = false := by
  rcases fmt1_charset h with hd | rfl | rfl
  · exact isDigitChar_not_ws hd
  · decide
  · decide

theorem fmt1_ne_seps {q : ℚ} {c : Char} (h : c ∈ (fmt1 q).data) :
    c ≠ '\n' ∧ c ≠ '|' := by
  rcases fmt1_charset h with hd | rfl | rfl
  · have h2 := isDigitChar_ne hd
    exact ⟨h2.2.2.2.2.2.2.1, h2.2.2.2.2.2.1⟩
  · exact ⟨by decide, by decide⟩
  · exact ⟨by decide, by decide⟩

theorem fmt1_length (q : ℚ) : 3 ≤ (fmt1 q).data.length := by
  rw [fmt1_data]
  have h1 : 1 ≤ (natChars ((pyRound (|q| * 10)).toNat / 10)).length :=
    List.length_pos.mpr (natChars_ne_nil _)
  have h2 : (padZeros 1 (natChars ((pyRound (|q| * 10)).toNat % 10))).length = 1 := by
    rw [natChars_single (Nat.mod_lt _ (by norm_num))]
    simp [padZeros]
  simp only [List.length_append, List.length_cons]
  omega

theorem parseCorr_fmt1 (q : ℚ) : parseCorr (fmt1 q) = some (dec1 q) := by
  unfold parseCorr
  rw [if_neg ?_]
  · exact pyFloat?_fmt1 q
  · intro hcond
    have hlen := fmt1_length q
    rcases Bool.or_eq_true _ _ ▸ hcond with h1 | h1
    · have := congrArg String.data (of_decide_eq_true h1)
      rw [this] at hlen
      simp at hlen
    · have := congrArg String.data (of_decide_eq_true h1)
      rw [this] at hlen
      simp at hlen

/-! ## Tier names -/

theorem tier_name_props {name : String}
    (h : name ∈ ["black", "dark gray", "gray", "light gray", "white"]) :
    '\n' ∉ name.data ∧ ':' ∉ name.data ∧ name.data ≠ [] ∧
      (∀ c, name.data.head? = some c → isWsChar c = false) ∧
      (⟨(stripList name.data).map Char.toLower⟩ : String) = name := by
  fin_cases h <;>
    exact ⟨by decide, by decide, by decide, by decide, by decide⟩

/-! ## Round trip of the calibration file -/

theorem parseCalib_piece {name : String}
    (hn : name ∈ ["black", "dark gray", "gray", "light gray", "white"])
    {w t : ℚ} (hw : DecimalRat w) (ht : DecimalRat t) :
    parseCalibLine (stripList (name.data ++ ':' :: (ratRepr w).data ++ ',' ::
      (ratRepr t).data ++ ['\n'])) = some (name, w, t) := by
  obtain ⟨hnl, hcol, hnil, hhead, hkey⟩ := tier_name_props hn
  rw [stripList_snoc_ws (by decide)]
  have hXne : name.data ++ ':' :: (ratRepr w).data ≠ [] := by
    intro h0
    exact hnil (List.append_eq_nil.mp h0).1
  have hstrip : stripList (name.data ++ ':' :: (ratRepr w).data ++ ',' ::
      (ratRepr t).data) = name.data ++ ':' :: (ratRepr w).data ++ ',' ::
      (ratRepr t).data := by
    apply stripList_eq_self_of_ends
    · intro c hc
      rw [head?_append_left hXne, head?_append_left hnil] at hc
      exact hhead c hc
    · intro c hc
      rw [getLast?_append_right (by simp)] at hc
      rw [show (',' :: (ratRepr t).data) = [','] ++ (ratRepr t).data from rfl] at hc
      rw [getLast?_append_right (ratRepr_ne_nil t)] at hc
      exact ratRepr_not_ws (mem_of_getLast? hc)
  rw [hstrip]
  have hsplit1 : splitCh ':' (name.data ++ ':' :: (ratRepr w).data ++ ',' ::
      (ratRepr t).data) =
      [name.data, (ratRepr w).data ++ ',' :: (ratRepr t).data] := by
    rw [List.append_assoc, List.cons_append]
    rw [splitCh_append_sep hcol]
    rw [splitCh_no_sep]
    intro hmem
    rcases List.mem_append.mp hmem with h1 | h1
    · exact (ratRepr_ne_seps h1).1 rfl
    · rcases List.mem_cons.mp h1 with h2 | h2
      · exact absurd h2 (by decide)
      · exact (ratRepr_ne_seps h2).1 rfl
  have hsplit2 : splitCh ',' ((ratRepr w).data ++ ',' :: (ratRepr t).data) =
      [(ratRepr w).data, (ratRepr t).data] := by
    rw [splitCh_append_sep]
    · rw [splitCh_no_sep]
      intro hmem
      exact (ratRepr_ne_seps hmem).2.1 rfl
    · intro hmem
      exact (ratRepr_ne_seps hmem).2.1 rfl
  unfold parseCalibLine
  rw [hsplit1]
  simp only [hsplit2]
  rw [stripList_all_not_ws (fun c hc => ratRepr_not_ws hc),
    stripList_all_not_ws (fun c hc => ratRepr_not_ws hc),
    pyFloatCore_ratRepr hw, pyFloatCore_ratRepr ht, hkey]

theorem calib_save_fold :
    ∀ (m acc : List (String × ℚ × ℚ)),
      (∀ e ∈ m, e.1 ∈ ["black", "dark gray", "gray", "light gray", "white"]) →
      (m.map Prod.fst).Nodup →
      (∀ e ∈ m, DecimalRat e.2.1 ∧ DecimalRat e.2.2) →
      (∀ e ∈ m, e.1 ∉ acc.map Prod.fst) →
      (m.map fun e => e.1.data ++ ':' :: (ratRepr e.2.1).data ++ ',' ::
        (ratRepr e.2.2).data ++ ['\n']).foldl calibStep acc = acc ++ m := by
  intro m
  induction m with
  | nil =>
    intro acc _ _ _ _
    simp
  | cons e m' ih =>
    intro acc hname hnodup hdec hfresh
    rw [List.map_cons, List.foldl_cons]
    have hstep : calibStep acc (e.1.data ++ ':' :: (ratRepr e.2.1).data ++ ',' ::
        (ratRepr e.2.2).data ++ ['\n']) = acc ++ [e] := by
      rw [calibStep_eq,
        parseCalib_piece (hname e (List.mem_cons_self _ _))
          (hdec e (List.mem_cons_self _ _)).1 (hdec e (List.mem_cons_self _ _)).2]
      exact dictInsert_fresh _ (hfresh e (List.mem_cons_self _ _))
    rw [hstep, ih (acc ++ [e])
      (fun x hx => hname x (List.mem_cons_of_mem _ hx))
      (by
        rw [List.map_cons] at hnodup
        exact hnodup.of_cons)
      (fun x hx => hdec x (List.mem_cons_of_mem _ hx))
      (by
        intro x hx
        rw [List.map_append]
        intro hmem
        rcases List.mem_append.mp hmem with h1 | h1
        · exact hfresh x (List.mem_cons_of_mem _ hx) h1
        · rw [List.map_cons] at hnodup
          have hx1 : x.1 ∈ m'.map Prod.fst := List.mem_map_of_mem _ hx
          rcases List.mem_singleton.mp h1 with he
          rw [he] at hx1
          exact (List.nodup_cons.mp hnodup).1 hx1)]
    simp

theorem load_save_calibration (m : List (String × ℚ × ℚ))
    (hname : ∀ e ∈ m, e.1 ∈ ["black", "dark gray", "gray", "light gray", "white"])
    (hnodup : (m.map Prod.fst).Nodup)
    (hdec : ∀ e ∈ m, DecimalRat e.2.1 ∧ DecimalRat e.2.2) :
    load_calibration_data (save_calibration_data m) = m := by
  unfold load_calibration_data
  have hdata : (save_calibration_data m).data =
      (m.map fun e => e.1.data ++ ':' :: (ratRepr e.2.1).data ++ ',' ::
        (ratRepr e.2.2).data ++ ['\n']).flatten := rfl
  rw [hdata, readLines_flatten]
  · have h := calib_save_fold m [] hname hnodup hdec (by simp)
    simpa using h
  · apply goodPieces_all_nl
    intro l hl
    rcases List.mem_map.mp hl with ⟨e, he, hle⟩
    refine ⟨e.1.data ++ ':' :: (ratRepr e.2.1).data ++ ',' :: (ratRepr e.2.2).data,
      ?_, hle.symm⟩
    obtain ⟨hnl, _, _, _, _⟩ := tier_name_props (hname e he)
    intro hmem
    rcases List.mem_append.mp hmem with h1 | h1
    · rcases List.mem_append.mp h1 with h2 | h2
      · exact hnl h2
      · rcases List.mem_cons.mp h2 with h3 | h3
        · exact absurd h3 (by decide)
        · exact (ratRepr_ne_seps h3).2.2.1 rfl
    · rcases List.mem_cons.mp h1 with h3 | h3
      · exact absurd h3 (by decide)
      · exact (ratRepr_ne_seps h3).2.2.1 rfl

/-! ## Reloading a saved profile file -/

theorem goodPieces_mem :
    ∀ {ps : List (List Char)}, GoodPieces ps → ∀ line ∈ ps,
      ∃ core, '\n' ∉ core ∧ (line = core ++ ['\n'] ∨ line = core) := by
  intro ps
  induction ps with
  | nil => intro _ line hl; simp at hl
  | cons l rest ih =>
    intro hg line hl
    rcases hg with ⟨core, hcore, hcase⟩
    rcases List.mem_cons.mp hl with rfl | hl2
    · rcases hcase with ⟨he, _⟩ | ⟨he, _, _⟩
      · exact ⟨core, hcore, Or.inl he⟩
      · exact ⟨core, hcore, Or.inr he⟩
    · rcases hcase with ⟨_, hg2⟩ | ⟨_, _, hrest⟩
      · exact ih hg2 line hl2
      · rw [hrest] at hl2
        simp at hl2

theorem no_nl_in_stripped_line {l : List Char} {line : List Char}
    (hline : line ∈ readLinesList l) : '\n' ∉ stripList line := by
  obtain ⟨core, hcore, hcase⟩ := goodPieces_mem (goodPieces_readLines l) line hline
  intro hmem
  rcases hcase with he | he
  · rw [he, stripList_snoc_ws (by decide)] at hmem
    exact hcore (mem_stripList hmem)
  · rw [he] at hmem
    exact hcore (mem_stripList hmem)

theorem lineMatches_blank {sel : String} {line : List Char}
    (hb : stripList line = []) : lineMatches sel line = false := by
  unfold lineMatches
  rw [hb]
  rfl

theorem lineMatches_parts {sel : String} {line : List Char}
    (h : lineMatches sel line = true) :
    ∃ t2 w2 t3 r, pyPipeParts (stripList line) = sel :: t2 :: w2 :: t3 :: r := by
  unfold lineMatches at h
  rcases hparts : pyPipeParts (stripList line) with
    _ | ⟨name, _ | ⟨a, _ | ⟨b, _ | ⟨c, r⟩⟩⟩⟩ <;> rw [hparts] at h
  · simp at h
  · simp at h
  · simp at h
  · simp at h
  · have hns : name = sel := of_decide_eq_true h
    subst hns
    exact ⟨a, b, c, r, rfl⟩

theorem pyPipeParts_profileLine (sel : String) (temp wbc tintc : List Char)
    (hsel_tr : stripList sel.data = sel.data)
    (hsel_ne : sel.data ≠ [])
    (hsel_pipe : '|' ∉ sel.data)
    (htemp_tr : stripList temp = temp)
    (htemp_pipe : '|' ∉ temp)
    (hwb_ws : ∀ c ∈ wbc, isWsChar c = false)
    (hwb_pipe : '|' ∉ wbc)
    (htint_ws : ∀ c ∈ tintc, isWsChar c = false)
    (htint_pipe : '|' ∉ tintc)
    (htint_ne : tintc ≠ []) :
    pyPipeParts (stripList (profileLine sel.data temp wbc tintc)) =
      [sel, ⟨temp⟩, ⟨wbc⟩, ⟨tintc⟩] := by
  unfold profileLine
  rw [stripList_snoc_ws (by decide)]
  have hne1 : sel.data ++ ' ' :: '|' :: ' ' :: temp ≠ [] := by
    intro h0
    exact hsel_ne (List.append_eq_nil.mp h0).1
  have hne2 : sel.data ++ ' ' :: '|' :: ' ' :: temp ++ ' ' :: '|' :: ' ' :: wbc ≠ [] := by
    intro h0
    exact hne1 (List.append_eq_nil.mp h0).1
  have hstrip : stripList (sel.data ++ ' ' :: '|' :: ' ' :: temp ++
      ' ' :: '|' :: ' ' :: wbc ++ ' ' :: '|' :: ' ' :: tintc) =
      sel.data ++ ' ' :: '|' :: ' ' :: temp ++
      ' ' :: '|' :: ' ' :: wbc ++ ' ' :: '|' :: ' ' :: tintc := by
    apply stripList_eq_self_of_ends
    · intro c hc
      rw [head?_append_left hne2, head?_append_left hne1,
        head?_append_left hsel_ne] at hc
      exact trimmed_head hsel_tr c hc
    · intro c hc
      rw [getLast?_append_right (by simp)] at hc
      rw [show (' ' :: '|' :: ' ' :: tintc) = [' ', '|', ' '] ++ tintc from rfl,
        getLast?_append_right htint_ne] at hc
      exact htint_ws c (mem_of_getLast? hc)
  rw [hstrip]
  have hassoc : sel.data ++ ' ' :: '|' :: ' ' :: temp ++
      ' ' :: '|' :: ' ' :: wbc ++ ' ' :: '|' :: ' ' :: tintc =
      (sel.data ++ [' ']) ++ '|' :: ((' ' :: temp ++ [' ']) ++
        '|' :: ((' ' :: wbc ++ [' ']) ++ '|' :: (' ' :: tintc))) := by
    simp
  rw [hassoc]
  unfold pyPipeParts
  rw [splitCh_append_sep (by
    intro hmem
    rcases List.mem_append.mp hmem with h1 | h1
    · exact hsel_pipe h1
    · exact absurd (List.mem_singleton.mp h1) (by decide))]
  rw [splitCh_append_sep (by
    intro hmem
    rcases List.mem_cons.mp hmem with h1 | h1
    · exact absurd h1 (by decide)
    · rcases List.mem_append.mp h1 with h2 | h2
      · exact htemp_pipe h2
      · exact absurd (List.mem_singleton.mp h2) (by decide))]
  rw [splitCh_append_sep (by
    intro hmem
    rcases List.mem_cons.mp hmem with h1 | h1
    · exact absurd h1 (by decide)
    · rcases List.mem_append.mp h1 with h2 | h2
      · exact hwb_pipe h2
      · exact absurd (List.mem_singleton.mp h2) (by decide))]
  rw [splitCh_no_sep (by
    intro hmem
    rcases List.mem_cons.mp hmem with h1 | h1
    · exact absurd h1 (by decide)
    · exact htint_pipe h1)]
  simp only [List.map_cons, List.map_nil]
  rw [stripList_snoc_ws (by decide), hsel_tr]
  rw [show (' ' :: temp ++ [' ']) = ' ' :: (temp ++ [' ']) from rfl,
    stripList_cons_ws (by decide), stripList_snoc_ws (by decide), htemp_tr]
  rw [show (' ' :: wbc ++ [' ']) = ' ' :: (wbc ++ [' ']) from rfl,
    stripList_cons_ws (by decide), stripList_snoc_ws (by decide),
    stripList_all_not_ws hwb_ws]
  rw [stripList_cons_ws (by decide), stripList_all_not_ws htint_ws]

theorem loadProfile_transformed
    (sel : String) (temp wbc tintc : List Char) (wv tv : ℚ)
    (hnew : pyPipeParts (stripList (profileLine sel.data temp wbc tintc)) =
      [sel, ⟨temp⟩, ⟨wbc⟩, ⟨tintc⟩])
    (hew : parseCorr ⟨wbc⟩ = some wv) (het : parseCorr ⟨tintc⟩ = some tv) :
    ∀ (ls : List (List Char)) (acc : List (String × PhoneProfile)),
      (∀ line ∈ ls, profLineSafe line = true) →
      ∃ m, loadProfileLines
          (ls.filterMap (saveTransform sel temp wbc tintc)) acc = .ok m ∧
        ((∃ line ∈ ls, lineMatches sel line = true) →
          m.lookup sel = some ⟨⟨temp⟩, wv, tv⟩) ∧
        ((∀ line ∈ ls, lineMatches sel line = false) →
          m.lookup sel = acc.lookup sel) := by
  have hnewne : stripList (profileLine sel.data temp wbc tintc) ≠ [] := by
    intro h0
    rw [h0] at hnew
    simp [pyPipeParts, splitCh] at hnew
  intro ls
  induction ls with
  | nil =>
    intro acc _
    refine ⟨acc, rfl, ?_, fun _ => rfl⟩
    intro h
    rcases h with ⟨line, hl, _⟩
    simp at hl
  | cons line rest ih =>
    intro acc hsafe
    have hsafe_line := hsafe line (List.mem_cons_self _ _)
    have hsafe' : ∀ l ∈ rest, profLineSafe l = true :=
      fun l hl => hsafe l (List.mem_cons_of_mem _ hl)
    by_cases hb : stripList line = []
    · rw [List.filterMap_cons_none (saveTransform_blank _ _ _ _ hb)]
      obtain ⟨m, hm, hmatch, hnomatch⟩ := ih acc hsafe'
      refine ⟨m, hm, ?_, ?_⟩
      · intro h
        rcases h with ⟨l2, hl2, hml2⟩
        rcases List.mem_cons.mp hl2 with rfl | hl3
        · rw [lineMatches_blank hb] at hml2
          simp at hml2
        · exact hmatch ⟨l2, hl3, hml2⟩
      · intro h
        exact hnomatch fun l2 hl2 => h l2 (List.mem_cons_of_mem _ hl2)
    · by_cases hm : lineMatches sel line = true
      · have hst : saveTransform sel temp wbc tintc line =
            some (profileLine sel.data temp wbc tintc) := by
          rw [saveTransform_nonblank _ _ _ _ hb, if_pos hm]
        rw [List.filterMap_cons_some hst]
        obtain ⟨m, hmok, hmatch, hnomatch⟩ :=
          ih (dictInsert sel ⟨⟨temp⟩, wv, tv⟩ acc) hsafe'
        refine ⟨m, ?_, ?_, ?_⟩
        · simp only [loadProfileLines]
          rw [if_neg hnewne, hnew]
          simp only [hew, het]
          exact hmok
        · intro _
          by_cases hrest : ∃ l2 ∈ rest, lineMatches sel l2 = true
          · exact hmatch hrest
          · push_neg at hrest
            rw [hnomatch fun l2 hl2 =>
              Bool.not_eq_true _ ▸ hrest l2 hl2]
            exact lookup_dictInsert_self _ _ _
        · intro h
          have hcon := h line (List.mem_cons_self _ _)
          rw [hm] at hcon
          simp at hcon
      · have hst : saveTransform sel temp wbc tintc line = some line := by
          rw [saveTransform_nonblank _ _ _ _ hb, if_neg hm]
        rw [List.filterMap_cons_some hst]
        have hmf : lineMatches sel line = false := Bool.eq_false_iff.mpr hm
        rcases hparts : pyPipeParts (stripList line) with
          _ | ⟨name, _ | ⟨tp2, _ | ⟨wb2, _ | ⟨ti2, r4⟩⟩⟩⟩
        · exact absurd hparts (pyPipeParts_ne_nil _)
        · obtain ⟨m, hmok, hmatch, hnomatch⟩ := ih acc hsafe'
          refine ⟨m, ?_, ?_, ?_⟩
          · simp only [loadProfileLines]
            rw [if_neg hb, hparts]
            exact hmok
          · intro h
            rcases h with ⟨l2, hl2, hml2⟩
            rcases List.mem_cons.mp hl2 with rfl | hl3
            · rw [hmf] at hml2
              simp at hml2
            · exact hmatch ⟨l2, hl3, hml2⟩
          · intro h
            exact hnomatch fun l2 hl2 => h l2 (List.mem_cons_of_mem _ hl2)
        · obtain ⟨m, hmok, hmatch, hnomatch⟩ := ih acc hsafe'
          refine ⟨m, ?_, ?_, ?_⟩
          · simp only [loadProfileLines]
            rw [if_neg hb, hparts]
            exact hmok
          · intro h
            rcases h with ⟨l2, hl2, hml2⟩
            rcases List.mem_cons.mp hl2 with rfl | hl3
            · rw [hmf] at hml2
              simp at hml2
            · exact hmatch ⟨l2, hl3, hml2⟩
          · intro h
            exact hnomatch fun l2 hl2 => h l2 (List.mem_cons_of_mem _ hl2)
        · obtain ⟨m, hmok, hmatch, hnomatch⟩ := ih acc hsafe'
          refine ⟨m, ?_, ?_, ?_⟩
          · simp only [loadProfileLines]
            rw [if_neg hb, hparts]
            exact hmok
          · intro h
            rcases h with ⟨l2, hl2, hml2⟩
            rcases List.mem_cons.mp hl2 with rfl | hl3
            · rw [hmf] at hml2
              simp at hml2
            · exact hmatch ⟨l2, hl3, hml2⟩
          · intro h
            exact hnomatch fun l2 hl2 => h l2 (List.mem_cons_of_mem _ hl2)
        · have hne : name ≠ sel := by
            unfold lineMatches at hmf
            rw [hparts] at hmf
            exact of_decide_eq_false hmf
          have hsafe2 : (parseCorr wb2).isSome = true ∧
              (parseCorr ti2).isSome = true := by
            unfold profLineSafe at hsafe_line
            rw [hparts] at hsafe_line
            rw [Bool.and_eq_true] at hsafe_line
            exact hsafe_line
          obtain ⟨w, hw⟩ := Option.isSome_iff_exists.mp hsafe2.1
          obtain ⟨t, ht⟩ := Option.isSome_iff_exists.mp hsafe2.2
          obtain ⟨m, hmok, hmatch, hnomatch⟩ :=
            ih (dictInsert name ⟨tp2, w, t⟩ acc) hsafe'
          refine ⟨m, ?_, ?_, ?_⟩
          · simp only [loadProfileLines]
            rw [if_neg hb, hparts]
            simp only [hw, ht]
            exact hmok
          · intro h
            rcases h with ⟨l2, hl2, hml2⟩
            rcases List.mem_cons.mp hl2 with rfl | hl3
            · rw [hmf] at hml2
              simp at hml2
            · exact hmatch ⟨l2, hl3, hml2⟩
          · intro h
            rw [hnomatch fun l2 hl2 => h l2 (List.mem_cons_of_mem _ hl2)]
            exact lookup_dictInsert_ne (Ne.symm hne) _ _

theorem sel_field_props {sel : String} {line : List Char}
    (h : lineMatches sel line = true) :
    stripList sel.data = sel.data ∧ '|' ∉ sel.data ∧
      ('\n' ∉ stripList line → '\n' ∉ sel.data) := by
  obtain ⟨t2, w2, t3, r, hp⟩ := lineMatches_parts h
  unfold pyPipeParts at hp
  rcases hsplit : splitCh '|' (stripList line) with _ | ⟨p0, ps⟩
  · exact absurd hsplit (splitCh_ne_nil _ _)
  · rw [hsplit, List.map_cons] at hp
    have hpmem : p0 ∈ splitCh '|' (stripList line) := by
      rw [hsplit]
      exact List.mem_cons_self _ _
    injection hp with h0 h1
    have hdata : stripList p0 = sel.data := congrArg String.data h0
    refine ⟨?_, ?_, ?_⟩
    · rw [← hdata, stripList_idem]
    · intro hmem
      rw [← hdata] at hmem
      exact splitCh_piece_no_sep hpmem (mem_stripList hmem)
    · intro hnl hmem
      rw [← hdata] at hmem
      exact hnl (splitCh_piece_mem hpmem (mem_stripList hmem))

theorem profileLine_good {sel : String} {temp wbc tintc : List Char}
    (hselnl : '\n' ∉ sel.data) (htempnl : '\n' ∉ temp)
    (hwbnl : '\n' ∉ wbc) (htintnl : '\n' ∉ tintc) :
    ∃ core, '\n' ∉ core ∧ profileLine sel.data temp wbc tintc = core ++ ['\n'] := by
  refine ⟨sel.data ++ ' ' :: '|' :: ' ' :: temp ++ ' ' :: '|' :: ' ' :: wbc ++
    ' ' :: '|' :: ' ' :: tintc, ?_, rfl⟩
  intro hmem
  rcases List.mem_append.mp hmem with h1 | h1
  · rcases List.mem_append.mp h1 with h2 | h2
    · rcases List.mem_append.mp h2 with h3 | h3
      · exact hselnl h3
      · rcases List.mem_cons.mp h3 with h4 | h4
        · exact absurd h4 (by decide)
        · rcases List.mem_cons.mp h4 with h5 | h5
          · exact absurd h5 (by decide)
          · rcases List.mem_cons.mp h5 with h6 | h6
            · exact absurd h6 (by decide)
            · exact htempnl h6
    · rcases List.mem_cons.mp h2 with h4 | h4
      · exact absurd h4 (by decide)
      · rcases List.mem_cons.mp h4 with h5 | h5
        · exact absurd h5 (by decide)
        · rcases List.mem_cons.mp h5 with h6 | h6
          · exact absurd h6 (by decide)
          · exact hwbnl h6
  · rcases List.mem_cons.mp h1 with h4 | h4
    · exact absurd h4 (by decide)
    · rcases List.mem_cons.mp h4 with h5 | h5
      · exact absurd h5 (by decide)
      · rcases List.mem_cons.mp h5 with h6 | h6
        · exact absurd h6 (by decide)
        · exact htintnl h6

theorem profile_save_reload (s : StageTwoState) (content : String)
    (hfile1 : s.phone_file ≠ "") (hfile2 : s.phone_file ≠ "No files found")
    (hselne : s.phone_profile ≠ "")
    (htemp : ∀ c ∈ stripList s.phone_temp.data, c ≠ '\n' ∧ c ≠ '|')
    (hsafe : ∀ line ∈ readLinesList content.data, profLineSafe line = true)
    (hsel : ∃ line ∈ readLinesList content.data,
      lineMatches s.phone_profile line = true) :
    ∃ m, load_phone_profiles (on_save_changes s content) = .ok m ∧
      m.lookup s.phone_profile =
        some ⟨pyStrip s.phone_temp, dec1 s.user_wb, dec1 s.user_tint⟩ := by
  obtain ⟨line0, hline0, hm0⟩ := hsel
  obtain ⟨hsel_tr, hsel_pipe, hsel_nlf⟩ := sel_field_props hm0
  have hsel_nl : '\n' ∉ s.phone_profile.data :=
    hsel_nlf (no_nl_in_stripped_line hline0)
  have hsel_ne : s.phone_profile.data ≠ [] := by
    intro h0
    exact hselne (String.ext h0)
  have htemp_tr : stripList (stripList s.phone_temp.data) =
      stripList s.phone_temp.data := stripList_idem _
  have htemp_pipe : '|' ∉ stripList s.phone_temp.data :=
    fun h => (htemp _ h).2 rfl
  have htemp_nl : '\n' ∉ stripList s.phone_temp.data :=
    fun h => (htemp _ h).1 rfl
  have hwb_ws : ∀ c ∈ (fmt1 s.user_wb).data, isWsChar c = false :=
    fun _ hc => fmt1_not_ws hc
  have hwb_pipe : '|' ∉ (fmt1 s.user_wb).data :=
    fun h => (fmt1_ne_seps h).2 rfl
  have hwb_nl : '\n' ∉ (fmt1 s.user_wb).data :=
    fun h => (fmt1_ne_seps h).1 rfl
  have htint_ws : ∀ c ∈ (fmt1 s.user_tint).data, isWsChar c = false :=
    fun _ hc => fmt1_not_ws hc
  have htint_pipe : '|' ∉ (fmt1 s.user_tint).data :=
    fun h => (fmt1_ne_seps h).2 rfl
  have htint_nl : '\n' ∉ (fmt1 s.user_tint).data :=
    fun h => (fmt1_ne_seps h).1 rfl
  have htint_ne : (fmt1 s.user_tint).data ≠ [] := by
    intro h0
    have hlen := fmt1_length s.user_tint
    rw [h0] at hlen
    simp at hlen
  have hnew := pyPipeParts_profileLine s.phone_profile
    (stripList s.phone_temp.data) (fmt1 s.user_wb).data (fmt1 s.user_tint).data
    hsel_tr hsel_ne hsel_pipe htemp_tr htemp_pipe hwb_ws hwb_pipe
    htint_ws htint_pipe htint_ne
  have hew : parseCorr ⟨(fmt1 s.user_wb).data⟩ = some (dec1 s.user_wb) :=
    parseCorr_fmt1 _
  have het : parseCorr ⟨(fmt1 s.user_tint).data⟩ = some (dec1 s.user_tint) :=
    parseCorr_fmt1 _
  have hf : ∀ l out, saveTransform s.phone_profile (stripList s.phone_temp.data)
      (fmt1 s.user_wb).data (fmt1 s.user_tint).data l = some out →
      (∃ core, '\n' ∉ core ∧ out = core ++ ['\n']) ∨ out = l := by
    intro l out hout
    by_cases hb : stripList l = []
    · rw [saveTransform_blank _ _ _ _ hb] at hout
      simp at hout
    · rw [saveTransform_nonblank _ _ _ _ hb] at hout
      rcases Option.some.inj hout with rfl
      by_cases hm : lineMatches s.phone_profile l = true
      · rw [if_pos hm]
        exact Or.inl (profileLine_good hsel_nl htemp_nl hwb_nl htint_nl)
      · rw [if_neg hm]
        exact Or.inr rfl
  have hlines := readLines_flatten _
    (goodPieces_filterMap hf (goodPieces_readLines content.data))
  obtain ⟨m, hok, hmatch, _⟩ := loadProfile_transformed s.phone_profile
    (stripList s.phone_temp.data) (fmt1 s.user_wb).data (fmt1 s.user_tint).data
    (dec1 s.user_wb) (dec1 s.user_tint) hnew hew het
    (readLinesList content.data) [] hsafe
  have hdata : (on_save_changes s content).data =
      ((readLinesList content.data).filterMap
        (saveTransform s.phone_profile (stripList s.phone_temp.data)
          (fmt1 s.user_wb).data (fmt1 s.user_tint).data)).flatten := by
    rw [on_save_changes_eq s content hfile1 hfile2]
  refine ⟨m, ?_, hmatch ⟨line0, hline0, hm0⟩⟩
  unfold load_phone_profiles
  rw [hdata, hlines]
  exact hok

/-! # Claims -/

/-- C1: with a selected test color of base value `b`, a monitor calibration
record `(mwb, mt)` for that color, a numeric temperature string denoting
`t`, and user slider values, `update_background` sets the main window
background to
`compute_color b (mwb + (t - 6500)/100 + user_wb) (mt + user_tint)`:
the final white-balance correction is monitor white balance plus the
temperature-derived offset plus the user slider, and the final tint is
monitor tint plus the user tint slider. -/
theorem c1_update_background_formula (s : StageTwoState) (b mwb mt t : ℚ)
    (hb : test_color_values.lookup s.test_color = some b)
    (hc : s.calibration_data.lookup (pyLower s.test_color) = some (mwb, mt))
    (hna : pyUpper (pyStrip s.phone_temp) ≠ "NA")
    (hne : pyStrip s.phone_temp ≠ "")
    (ht : pyFloat? (pyStrip s.phone_temp) = some t) :
    update_background s =
      compute_color b (mwb + (t - 6500) / 100 + s.user_wb) (mt + s.user_tint) := by
  unfold update_background baseOf monitorCalibOf phoneTempCorr
  rw [hb, hc, Option.getD_some, Option.getD_some,
    if_neg (by push_neg; exact ⟨hna, hne⟩), ht]

/-- Witness for C1 at a concrete state: calibration `("gray", 1, 2)`,
test color `"Gray"` (base 128), temperature `"7000"`, sliders 3 and 4. -/
theorem c1_update_background_formula_witness :
    test_color_values.lookup "Gray" = some 128 ∧
    [("gray", (1 : ℚ), (2 : ℚ))].lookup (pyLower "Gray") = some (1, 2) ∧
    pyUpper (pyStrip "7000") ≠ "NA" ∧
    pyStrip "7000" ≠ "" ∧
    pyFloat? (pyStrip "7000") = some 7000 ∧
    update_background ⟨[("gray", 1, 2)], "Gray", "f.txt", "a", "7000", 3, 4, []⟩ =
      compute_color 128 (1 + (7000 - 6500) / 100 + 3) (2 + 4) :=
  ⟨by decide, by decide, by decide, by decide, by decide,
    c1_update_background_formula ⟨[("gray", 1, 2)], "Gray", "f.txt", "a", "7000", 3, 4, []⟩
      128 1 2 7000 (by decide) (by decide) (by decide) (by decide) (by decide)⟩

/-- C2: whatever the base value and the white-balance and tint corrections
(inside or outside `[-50, 50]`), each of the three channels produced by
`compute_color` through `clamp` lies in the 8-bit range `[0, 255]`. -/
theorem c2_channels_in_byte_range (base wb tint : ℚ) :
    0 ≤ (computeColorRGB base wb tint).1 ∧ (computeColorRGB base wb tint).1 ≤ 255 ∧
    0 ≤ (computeColorRGB base wb tint).2.1 ∧ (computeColorRGB base wb tint).2.1 ≤ 255 ∧
    0 ≤ (computeColorRGB base wb tint).2.2 ∧ (computeColorRGB base wb tint).2.2 ≤ 255 :=
  ⟨(clamp_bounds _).1, (clamp_bounds _).2, (clamp_bounds _).1, (clamp_bounds _).2,
    (clamp_bounds _).1, (clamp_bounds _).2⟩

/-- C3: `compute_color` has red channel `clamp (base + wb)`, green channel
`clamp (base + tint)`, and blue channel `clamp (base - wb)`; the green
channel does not depend on the white-balance correction, and the red and
blue channels do not depend on the tint correction. -/
theorem c3_channel_formulas (base wb tint wb' tint' : ℚ) :
    (computeColorRGB base wb tint).1 = clamp (base + wb) ∧
    (computeColorRGB base wb tint).2.1 = clamp (base + tint) ∧
    (computeColorRGB base wb tint).2.2 = clamp (base - wb) ∧
    (computeColorRGB base wb' tint).2.1 = (computeColorRGB base wb tint).2.1 ∧
    (computeColorRGB base wb tint').1 = (computeColorRGB base wb tint).1 ∧
    (computeColorRGB base wb tint').2.2 = (computeColorRGB base wb tint).2.2 :=
  ⟨rfl, rfl, rfl, rfl, rfl, rfl⟩

/-- C5: selecting a profile name present in the loaded `phone_profiles` map
copies its stored `wb_correction` to the user white-balance slider, its
stored `tint_correction` to the user tint slider, and its stored
temperature string (even the literal `"NA"`) to the temperature field. -/
theorem c5_profile_change_loads_record (s : StageTwoState) (value : String)
    (p : PhoneProfile) (h : s.phone_profiles.lookup value = some p) :
    (on_phone_profile_change s value).user_wb = p.wb_correction ∧
    (on_phone_profile_change s value).user_tint = p.tint_correction ∧
    (on_phone_profile_change s value).phone_temp = p.temperature := by
  unfold on_phone_profile_change
  rw [h]
  exact ⟨rfl, rfl, rfl⟩

/-- Witness for C5: selecting profile `"a"` with stored record
`("NA", 7, -3)` in a concrete state. -/
theorem c5_profile_change_loads_record_witness :
    [("a", (⟨"NA", 7, -3⟩ : PhoneProfile))].lookup "a" = some ⟨"NA", 7, -3⟩ ∧
    (on_phone_profile_change
        ⟨[], "Gray", "f.txt", "a", "6500", 0, 0, [("a", ⟨"NA", 7, -3⟩)]⟩ "a").user_wb = 7 ∧
    (on_phone_profile_change
        ⟨[], "Gray", "f.txt", "a", "6500", 0, 0, [("a", ⟨"NA", 7, -3⟩)]⟩ "a").user_tint = -3 ∧
    (on_phone_profile_change
        ⟨[], "Gray", "f.txt", "a", "6500", 0, 0, [("a", ⟨"NA", 7, -3⟩)]⟩ "a").phone_temp = "NA" := by
  refine ⟨by decide, ?_⟩
  have h := c5_profile_change_loads_record
    ⟨[], "Gray", "f.txt", "a", "6500", 0, 0, [("a", ⟨"NA", 7, -3⟩)]⟩ "a" ⟨"NA", 7, -3⟩ (by decide)
  exact ⟨h.1, h.2.1, h.2.2⟩

/-- C7: when the stripped temperature entry is empty, `"NA"` in any letter
case, or not parseable as a number, the temperature correction is exactly
zero and `update_background` produces the color computed from the monitor
calibration and the user sliders alone. -/
theorem c7_bad_temperature_is_zero_correction (s : StageTwoState)
    (h : pyStrip s.phone_temp = "" ∨ pyUpper (pyStrip s.phone_temp) = "NA" ∨
      pyFloat? (pyStrip s.phone_temp) = none) :
    phoneTempCorr s.phone_temp = 0 ∧
    update_background s =
      compute_color (baseOf s) ((monitorCalibOf s).1 + s.user_wb)
        ((monitorCalibOf s).2 + s.user_tint) := by
  have hcorr : phoneTempCorr s.phone_temp = 0 := by
    unfold phoneTempCorr
    rcases h with h | h | h
    · rw [if_pos (Or.inr h)]
    · rw [if_pos (Or.inl h)]
    · by_cases hg : pyUpper (pyStrip s.phone_temp) = "NA" ∨ pyStrip s.phone_temp = ""
      · rw [if_pos hg]
      · rw [if_neg hg, h]
  refine ⟨hcorr, ?_⟩
  show compute_color (baseOf s)
      ((monitorCalibOf s).1 + phoneTempCorr s.phone_temp + s.user_wb)
      ((monitorCalibOf s).2 + s.user_tint) =
    compute_color (baseOf s) ((monitorCalibOf s).1 + s.user_wb)
      ((monitorCalibOf s).2 + s.user_tint)
  rw [hcorr, add_zero]

/-- Witness for C7: the temperature entry `" nA "` (strips to `"nA"`,
uppercases to `"NA"`). -/
theorem c7_bad_temperature_is_zero_correction_witness :
    pyUpper (pyStrip " nA ") = "NA" ∧
    (phoneTempCorr " nA " = 0 ∧
      update_background ⟨[("gray", 1, 2)], "Gray", "f.txt", "a", " nA ", 3, 4, []⟩ =
        compute_color
          (baseOf ⟨[("gray", 1, 2)], "Gray", "f.txt", "a", " nA ", 3, 4, []⟩)
          ((monitorCalibOf ⟨[("gray", 1, 2)], "Gray", "f.txt", "a", " nA ", 3, 4, []⟩).1 + 3)
          ((monitorCalibOf ⟨[("gray", 1, 2)], "Gray", "f.txt", "a", " nA ", 3, 4, []⟩).2 + 4)) :=
  ⟨by decide, c7_bad_temperature_is_zero_correction
    ⟨[("gray", 1, 2)], "Gray", "f.txt", "a", " nA ", 3, 4, []⟩ (Or.inr (Or.inl (by decide)))⟩

/-- C8 counterexample: `load_calibration_data` applies no range check — the
file line `gray:1000,0` loads as a calibration record whose white-balance
offset 1000 is far outside `[-50, 50]`, so not every record held by the
program lies in that interval. -/
theorem c8_load_unchecked_counterexample :
    load_calibration_data "gray:1000,0" = [("gray", (1000 : ℚ), (0 : ℚ))] ∧
    ¬ ((1000 : ℚ) ≤ 50) := by
  constructor
  · decide
  · norm_num

/-- C8 (amended): every calibration record produced by the wizard's sliders
has both offsets within `[-50, 50]` — provided every slider event stays in
the sliders' range, which the `tk.Scale` bounds `from_=-50.0, to=50.0`
guarantee; `load_calibration_data`, by contrast, enforces no range. -/
theorem c8_wizard_records_in_range (es : List CalEvent)
    (h : ∀ e ∈ es, ∀ v : ℚ,
      e = CalEvent.wb v ∨ e = CalEvent.tint v → -50 ≤ v ∧ v ≤ 50) :
    ∀ p ∈ (calRun es).1.calibration_values,
      -50 ≤ p.2.1 ∧ p.2.1 ≤ 50 ∧ -50 ≤ p.2.2 ∧ p.2.2 ≤ 50 :=
  calSteps_range es initCalState [] h
    (by simp only [initCalState]; norm_num)
    (by simp only [initCalState]; norm_num)
    (by intro p hp; simp [initCalState] at hp)

/-- Witness for C8 (amended) on a concrete two-press run with sliders at
`3` and `-7`. -/
theorem c8_wizard_records_in_range_witness :
    (∀ e ∈ [CalEvent.wb 3, CalEvent.tint (-7), CalEvent.next], ∀ v : ℚ,
      e = CalEvent.wb v ∨ e = CalEvent.tint v → -50 ≤ v ∧ v ≤ 50) ∧
    ∀ p ∈ (calRun [CalEvent.wb 3, CalEvent.tint (-7), CalEvent.next]).1.calibration_values,
      -50 ≤ p.2.1 ∧ p.2.1 ≤ 50 ∧ -50 ≤ p.2.2 ∧ p.2.2 ≤ 50 := by
  have hev : ∀ e ∈ [CalEvent.wb 3, CalEvent.tint (-7), CalEvent.next], ∀ v : ℚ,
      e = CalEvent.wb v ∨ e = CalEvent.tint v → -50 ≤ v ∧ v ≤ 50 := by
    intro e he v hv
    rcases List.mem_cons.mp he with rfl | he2
    · rcases hv with h | h
      · injection h with h3
        rw [← h3]
        norm_num
      · exact CalEvent.noConfusion h
    · rcases List.mem_cons.mp he2 with rfl | he3
      · rcases hv with h | h
        · exact CalEvent.noConfusion h
        · injection h with h3
          rw [← h3]
          norm_num
      · rcases List.mem_cons.mp he3 with rfl | he4
        · rcases hv with h | h <;> exact CalEvent.noConfusion h
        · simp at he4
  exact ⟨hev, c8_wizard_records_in_range [CalEvent.wb 3, CalEvent.tint (-7), CalEvent.next] hev⟩

/-- C10: pressing Next at a non-final tier records the current slider pair
under the current tier's name, writes no file, and resets both corrections
to zero; over any event sequence with exactly five Next presses the
calibration file is written exactly once — no prefix with fewer than five
presses writes anything — and the written map's keys are exactly the five
tier names in order. -/
theorem c10_wizard_presses (s : CalState) (es pre suf : List CalEvent)
    (hs : s.current_index + 1 < brightness_levels.length)
    (hes : countNext es = 5)
    (_hpre : es = pre ++ suf)
    (hpre5 : countNext pre < 5) :
    calStep s CalEvent.next =
      (⟨dictInsert (levelName s.current_index) (s.current_wb, s.current_tint)
          s.calibration_values, s.current_index + 1, 0, 0⟩, none) ∧
    (calRun es).2 = [(calRun es).1.calibration_values] ∧
    (calRun es).1.calibration_values.map Prod.fst =
      ["black", "dark gray", "gray", "light gray", "white"] ∧
    (calRun pre).2 = [] := by
  obtain ⟨i1, i2, i3, _⟩ := calSteps_invariant es initCalState []
    (by simp [initCalState]) (by simp [initCalState, hes])
  obtain ⟨_, _, p3, _⟩ := calSteps_invariant pre initCalState []
    (by simp [initCalState]) (by simp [initCalState]; omega)
  refine ⟨?_, ?_, ?_, ?_⟩
  · rw [calStep_next, if_pos hs]
  · show (calRunFrom (initCalState, []) es).2 =
      [(calRunFrom (initCalState, []) es).1.calibration_values]
    rw [i3]
    simp only [initCalState] at *
    rw [if_pos (by simp [hes])]
    simp
  · show (calRunFrom (initCalState, []) es).1.calibration_values.map Prod.fst =
      ["black", "dark gray", "gray", "light gray", "white"]
    rw [i2]
    simp only [initCalState, hes]
    decide
  · show (calRunFrom (initCalState, []) pre).2 = []
    rw [p3]
    simp only [initCalState]
    rw [if_neg (by rintro ⟨h1, -⟩; simp at h1; omega)]
    simp

/-- Witness for C10: a concrete state at tier 0 with sliders `3, 4`, and
the five-press trace (with a slider move in between). -/
theorem c10_wizard_presses_witness :
    ((⟨[], 0, 3, 4⟩ : CalState).current_index + 1 < brightness_levels.length ∧
      countNext [CalEvent.wb 2, CalEvent.next, CalEvent.next, CalEvent.next,
        CalEvent.next, CalEvent.next] = 5 ∧
      countNext [CalEvent.wb 2, CalEvent.next] < 5) ∧
    calStep ⟨[], 0, 3, 4⟩ CalEvent.next =
      (⟨[("black", 3, 4)], 1, 0, 0⟩, none) ∧
    (calRun [CalEvent.wb 2, CalEvent.next, CalEvent.next, CalEvent.next,
        CalEvent.next, CalEvent.next]).2 =
      [(calRun [CalEvent.wb 2, CalEvent.next, CalEvent.next, CalEvent.next,
        CalEvent.next, CalEvent.next]).1.calibration_values] ∧
    (calRun [CalEvent.wb 2, CalEvent.next, CalEvent.next, CalEvent.next,
        CalEvent.next, CalEvent.next]).1.calibration_values.map Prod.fst =
      ["black", "dark gray", "gray", "light gray", "white"] ∧
    (calRun [CalEvent.wb 2, CalEvent.next]).2 = [] := by
  have h := c10_wizard_presses ⟨[], 0, 3, 4⟩
    [CalEvent.wb 2, CalEvent.next, CalEvent.next, CalEvent.next,
      CalEvent.next, CalEvent.next]
    [CalEvent.wb 2, CalEvent.next]
    [CalEvent.next, CalEvent.next, CalEvent.next, CalEvent.next]
    (by decide) (by decide) rfl (by decide)
  exact ⟨⟨by decide, by decide, by decide⟩, h.1, h.2.1, h.2.2.1, h.2.2.2⟩

/-- C6 counterexample: `load_phone_profiles` is not exception-free — the
single line `x | NA | abc | 0` has four fields, its white-balance field
`"abc"` is neither empty nor `"NA"` nor numeric, and the unguarded
`float()` call raises, aborting the whole load. -/
theorem c6_nonnumeric_correction_raises :
    load_phone_profiles "x | NA | abc | 0" = .error () ∧
    pyFloat? "abc" = none := by
  constructor
  · rfl
  · decide

/-- C6 (amended): `load_phone_profiles` skips blank lines and lines with
fewer than four pipe-separated fields and returns a record for every line
with at least four fields whose correction fields are accepted; it raises
only when some line has four or more fields and a correction field that is
neither numeric nor empty nor exactly `"NA"`.  `load_calibration_data`
skips malformed lines while loading the well-formed ones: every line that
parses contributes its key, and every key comes from a line that parses. -/
theorem c6_loaders_skip_malformed (content : String)
    (hsafe : ∀ line ∈ readLinesList content.data, profLineSafe line = true) :
    (∃ m, load_phone_profiles content = .ok m ∧
      ∀ line ∈ readLinesList content.data, ∀ name temp wbs tints rest,
        pyPipeParts (stripList line) = name :: temp :: wbs :: tints :: rest →
        name ∈ m.map Prod.fst) ∧
    (∀ line ∈ readLinesList content.data, ∀ k w t,
      parseCalibLine (stripList line) = some (k, w, t) →
      k ∈ (load_calibration_data content).map Prod.fst) ∧
    (∀ k ∈ (load_calibration_data content).map Prod.fst,
      ∃ line ∈ readLinesList content.data, ∃ w t,
        parseCalibLine (stripList line) = some (k, w, t)) := by
  obtain ⟨c1, c2, c3⟩ := calib_fold_keys (readLinesList content.data) []
  refine ⟨?_, ?_, ?_⟩
  · obtain ⟨m, hm, _, hwf⟩ := loadProfileLines_safe (readLinesList content.data) [] hsafe
    exact ⟨m, hm, hwf⟩
  · intro line hl k w t hp
    exact c2 line hl k w t hp
  · intro k hk
    rcases c3 k hk with h1 | h1
    · simp at h1
    · exact h1

/-- Witness for C6 (amended) on a concrete file: a well-formed line, a
short line, a blank line, and a line with `"NA"` corrections. -/
theorem c6_loaders_skip_malformed_witness :
    (∀ line ∈ readLinesList ("a | 7000 | 1.5 | 0\nbad\n\nb | NA | NA | 2\n" : String).data,
      profLineSafe line = true) ∧
    (∃ m, load_phone_profiles "a | 7000 | 1.5 | 0\nbad\n\nb | NA | NA | 2\n" = .ok m ∧
      ∀ line ∈ readLinesList ("a | 7000 | 1.5 | 0\nbad\n\nb | NA | NA | 2\n" : String).data,
        ∀ name temp wbs tints rest,
          pyPipeParts (stripList line) = name :: temp :: wbs :: tints :: rest →
          name ∈ m.map Prod.fst) :=
  ⟨by decide,
    (c6_loaders_skip_malformed "a | 7000 | 1.5 | 0\nbad\n\nb | NA | NA | 2\n" (by decide)).1⟩

/-- C9 counterexample: a blank line between two records is not written
back — the claim that every non-matching line is preserved exactly fails.
With profile `a` selected, temperature 7000 and sliders 1 and 2, the file
`"a | NA | 1 | 2\n\nb | NA | 3 | 4\n"` is rewritten without its blank
line. -/
theorem c9_blank_line_dropped_counterexample :
    on_save_changes ⟨[], "Gray", "f.txt", "a", "7000", 1, 2, []⟩
        "a | NA | 1 | 2\n\nb | NA | 3 | 4\n" =
      "a | 7000 | 1.0 | 2.0\nb | NA | 3 | 4\n" ∧
    on_save_changes ⟨[], "Gray", "f.txt", "a", "7000", 1, 2, []⟩
        "a | NA | 1 | 2\n\nb | NA | 3 | 4\n" ≠
      "a | 7000 | 1.0 | 2.0\n\nb | NA | 3 | 4\n" := by
  constructor
  · with_unfolding_all decide
  · with_unfolding_all decide

/-- Witness for C9 (amended) at a concrete state and file. -/
theorem c9_save_rewrites_matching_lines_witness :
    (("f.txt" : String) ≠ "" ∧ ("f.txt" : String) ≠ "No files found") ∧
    on_save_changes ⟨[], "Gray", "f.txt", "a", "7000", 1, 2, []⟩
        "a | NA | 1 | 2\nb | NA | 3 | 4\n" =
      ⟨(((readLinesList ("a | NA | 1 | 2\nb | NA | 3 | 4\n" : String).data).filter
          fun l => !(stripList l).isEmpty).map
          fun l =>
            if lineMatches "a" l
            then profileLine ("a" : String).data (stripList ("7000" : String).data)
              (fmt1 1).data (fmt1 2).data
            else l).flatten⟩ :=
  ⟨⟨by decide, by decide⟩,
    c9_save_rewrites_matching_lines ⟨[], "Gray", "f.txt", "a", "7000", 1, 2, []⟩
      "a | NA | 1 | 2\nb | NA | 3 | 4\n" (by decide) (by decide)⟩

/-- **C4**: persistence round-trips. Saving any calibration map whose keys are
the five tier names (no duplicates) and whose corrections are exactly
representable decimals, then reloading it, returns the same map; and saving the
selected profile's current temperature and slider values with `on_save_changes`
(which formats the corrections at one decimal) and reloading the file with
`load_phone_profiles` reproduces exactly those stored values: the stripped
temperature string and the one-decimal roundings `dec1` of the sliders. -/
theorem c4_persistence_roundtrip
    (m : List (String × ℚ × ℚ))
    (hname : ∀ e ∈ m, e.1 ∈ ["black", "dark gray", "gray", "light gray", "white"])
    (hnodup : (m.map Prod.fst).Nodup)
    (hdec : ∀ e ∈ m, DecimalRat e.2.1 ∧ DecimalRat e.2.2)
    (s : StageTwoState) (content : String)
    (hfile1 : s.phone_file ≠ "") (hfile2 : s.phone_file ≠ "No files found")
    (hselne : s.phone_profile ≠ "")
    (htemp : ∀ c ∈ stripList s.phone_temp.data, c ≠ '\n' ∧ c ≠ '|')
    (hsafe : ∀ line ∈ readLinesList content.data, profLineSafe line = true)
    (hsel : ∃ line ∈ readLinesList content.data,
      lineMatches s.phone_profile line = true) :
    load_calibration_data (save_calibration_data m) = m ∧
    ∃ m2, load_phone_profiles (on_save_changes s content) = .ok m2 ∧
      m2.lookup s.phone_profile =
        some ⟨pyStrip s.phone_temp, dec1 s.user_wb, dec1 s.user_tint⟩ :=
  ⟨load_save_calibration m hname hnodup hdec,
   profile_save_reload s content hfile1 hfile2 hselne htemp hsafe hsel⟩

/-- Witness for C4 at a concrete calibration map, state and profile file. -/
theorem c4_persistence_roundtrip_witness :
    (∀ e ∈ [(("gray" : String), (2 : ℚ), (0 : ℚ))],
      e.1 ∈ ["black", "dark gray", "gray", "light gray", "white"]) ∧
    ([(("gray" : String), (2 : ℚ), (0 : ℚ))].map Prod.fst).Nodup ∧
    (∀ e ∈ [(("gray" : String), (2 : ℚ), (0 : ℚ))],
      DecimalRat e.2.1 ∧ DecimalRat e.2.2) ∧
    (("phone.txt" : String) ≠ "" ∧ ("phone.txt" : String) ≠ "No files found" ∧
      ("MyPhone" : String) ≠ "") ∧
    (∀ c ∈ stripList ("6500" : String).data, c ≠ '\n' ∧ c ≠ '|') ∧
    (∀ line ∈ readLinesList ("MyPhone | 6500 | 0.0 | 0.0\n" : String).data,
      profLineSafe line = true) ∧
    (∃ line ∈ readLinesList ("MyPhone | 6500 | 0.0 | 0.0\n" : String).data,
      lineMatches "MyPhone" line = true) ∧
    (load_calibration_data (save_calibration_data
        [(("gray" : String), (2 : ℚ), (0 : ℚ))]) =
      [(("gray" : String), (2 : ℚ), (0 : ℚ))] ∧
    ∃ m2, load_phone_profiles (on_save_changes
        ⟨[], "white", "phone.txt", "MyPhone", "6500", 0, 0, []⟩
        "MyPhone | 6500 | 0.0 | 0.0\n") = .ok m2 ∧
      m2.lookup "MyPhone" = some ⟨pyStrip "6500", dec1 0, dec1 0⟩) :=
  ⟨by decide, by decide,
   by
    intro e he
    rw [List.mem_singleton] at he
    subst he
    exact ⟨⟨0, by decide⟩, ⟨0, by decide⟩⟩,
   ⟨by decide, by decide, by decide⟩, by decide, by decide, by decide,
   c4_persistence_roundtrip [(("gray" : String), (2 : ℚ), (0 : ℚ))]
    (by decide) (by decide)
    (by
      intro e he
      rw [List.mem_singleton] at he
      subst he
      exact ⟨⟨0, by decide⟩, ⟨0, by decide⟩⟩)
    ⟨[], "white", "phone.txt", "MyPhone", "6500", 0, 0, []⟩
    "MyPhone | 6500 | 0.0 | 0.0\n"
    (by decide) (by decide) (by decide) (by decide) (by decide) (by decide)⟩

end Calibrator
